import Mathlib

/-!
Shallow embedding of the leviathan-news/auction-block auction engine
("House").  The repository ships only the test-suite and deployment
scripts; the House contract itself is absent, so every definition below
is modelled from the specification (spec.md), cross-checked against the
observable behaviour encoded in the native test-suite (error tags such
as "!pending", "settled", "!completed", the fee formula
`amount * fee_percent // precision`, the approval-flag matrix, and the
anti-snipe extension).
-/

/-- An account address; `0` stands for the null address, which the
execution environment guarantees never originates a call. -/
abbrev Addr := Nat

/-- Modelled from the spec: the four delegation levels of the
permission table (§4.4 and the `approval_flags` test fixture). -/
inductive ApprovalStatus
  | noAccess
  | bidOnly
  | withdrawOnly
  | bidAndWithdraw
deriving DecidableEq, Repr

/-- Modelled from the spec: per-auction parameters (§3 AuctionParams);
`instabuy_price = 0` disables instabuy, `beneficiary = 0` means the
proceeds go to the protocol owner. -/
structure AuctionParams where
  time_buffer : Nat
  reserve_price : Nat
  min_bid_increment_percentage : Nat
  duration : Nat
  instabuy_price : Nat
  beneficiary : Addr
deriving DecidableEq, Repr

/-- Modelled from the spec: one auction record (§3 Auction);
`bidder = 0` means no bid yet. -/
structure Auction where
  amount : Nat
  bidder : Addr
  start_time : Nat
  end_time : Nat
  settled : Bool
  params : AuctionParams
deriving DecidableEq, Repr

/-- A payment-asset movement observed at the token interface:
`pull` moves funds into the engine from an account, `push` pays out. -/
inductive Transfer
  | pull (acct : Addr) (amount : Nat)
  | push (acct : Addr) (amount : Nat)
deriving DecidableEq, Repr

/-- Modelled from the spec: the error taxonomy of §7, one constructor
per distinct revert condition observed in the tests. -/
inductive Err
  | notOwner
  | whenPaused
  | auctionMissing
  | alreadySettled
  | auctionExpired
  | notComplete
  | belowReserve
  | belowIncrement
  | insufficientFunds
  | nothingPending
  | batchTooLarge
  | notApproved
  | slippage
  | nullAccount
deriving DecidableEq, Repr

/-- Finite association map, read with a default value; the first
occurrence of a key is authoritative. -/
def mapGet {κ ν : Type} [DecidableEq κ] (d : ν) : List (κ × ν) → κ → ν
  | [], _ => d
  | e :: t, k => if e.1 = k then e.2 else mapGet d t k

/-- Write a key in an association map, replacing the first occurrence
or appending a fresh entry. -/
def mapSet {κ ν : Type} [DecidableEq κ] : List (κ × ν) → κ → ν → List (κ × ν)
  | [], k, v => [(k, v)]
  | e :: t, k, v => if e.1 = k then (k, v) :: t else e :: mapSet t k v

/-- Modelled from the spec: the full state of one auction engine
(auction registry, pending-returns ledger keyed by
(auction id, account), permission table, fee configuration, pause flag,
and the engine's payment-asset balance).  Auction `i` lives at list
index `i - 1`; ids are 1-based and monotone. -/
structure HouseState where
  auctions : List Auction
  pending : List ((Nat × Addr) × Nat)
  approved : List ((Addr × Addr) × ApprovalStatus)
  owner : Addr
  fee_receiver : Addr
  fee_percent : Nat
  precision : Nat
  paused : Bool
  balance : Nat
deriving DecidableEq, Repr

/-- Look an auction up by its 1-based id. -/
def HouseState.auction (s : HouseState) (id : Nat) : Option Auction :=
  if id = 0 then none else s.auctions.get? (id - 1)

/-- Pending-return entry for one (auction id, account) pair. -/
def HouseState.pendingOf (s : HouseState) (id : Nat) (acct : Addr) : Nat :=
  mapGet 0 s.pending (id, acct)

/-- Permission level the principal `acct` has granted to `caller`. -/
def HouseState.levelOf (s : HouseState) (acct caller : Addr) : ApprovalStatus :=
  mapGet ApprovalStatus.noAccess s.approved (acct, caller)

/-- Modelled from the spec: a caller may bid for `acct` when it is
`acct` itself or holds BidOnly / BidAndWithdraw delegation (§4.1). -/
def canBid (s : HouseState) (acct caller : Addr) : Bool :=
  caller = acct ||
    match s.levelOf acct caller with
    | .bidOnly => true
    | .bidAndWithdraw => true
    | _ => false

/-- Modelled from the spec: a caller may withdraw for `acct` when it is
`acct` itself or holds WithdrawOnly / BidAndWithdraw delegation (§4.2). -/
def canWithdraw (s : HouseState) (acct caller : Addr) : Bool :=
  caller = acct ||
    match s.levelOf acct caller with
    | .withdrawOnly => true
    | .bidAndWithdraw => true
    | _ => false

/-- Modelled from the spec: minimum acceptable total bid — the reserve
price while no bid exists, otherwise the previous amount raised by
`min_bid_increment_percentage` over `precision`, rounded down (§4.1). -/
def minTotalBid (s : HouseState) (a : Auction) : Nat :=
  if a.bidder = 0 then a.params.reserve_price
  else a.amount + a.amount * a.params.min_bid_increment_percentage / s.precision

/-- Modelled from the spec: a bidder's credit already held by the
engine for this auction — their own current winning amount plus their
pending-return entry (§4.1). -/
def priorOf (s : HouseState) (a : Auction) (id : Nat) (acct : Addr) : Nat :=
  (if a.bidder = acct then a.amount else 0) + s.pendingOf id acct

/-- Modelled from the spec: settlement distribution — fee share to the
fee recipient, remainder to the beneficiary override or the protocol
owner; nothing moves without a winning bid (§4.3). -/
def distribute (s : HouseState) (a : Auction) : HouseState × List Transfer :=
  if a.bidder = 0 then (s, [])
  else
    let fee := a.amount * s.fee_percent / s.precision
    let ben := if a.params.beneficiary = 0 then s.owner else a.params.beneficiary
    ({ s with balance := s.balance - a.amount },
     [Transfer.push s.fee_receiver fee, Transfer.push ben (a.amount - fee)])

/-- Modelled from the spec: the shared bid-acceptance core of §4.1 —
state checks, minimum-bid checks, marginal transfer, displacement of
the previous winner into a pending return, anti-snipe extension, and
the instabuy immediate settlement. -/
def bidCore (s : HouseState) (onBehalf : Addr) (now id total : Nat) :
    Except Err (HouseState × List Transfer) :=
  match s.auction id with
  | none => .error .auctionMissing
  | some a =>
    if a.settled then .error .alreadySettled
    else if a.end_time < now then .error .auctionExpired
    else if a.bidder = 0 ∧ total < a.params.reserve_price then .error .belowReserve
    else if a.bidder ≠ 0 ∧ total < minTotalBid s a then .error .belowIncrement
    else if total < priorOf s a id onBehalf then .error .insufficientFunds
    else
      let transferAmount := total - priorOf s a id onBehalf
      let pending1 := mapSet s.pending (id, onBehalf) 0
      let pending2 :=
        if a.bidder ≠ 0 ∧ a.bidder ≠ onBehalf then
          mapSet pending1 (id, a.bidder) (mapGet 0 pending1 (id, a.bidder) + a.amount)
        else pending1
      let newEnd :=
        if a.end_time - a.params.time_buffer < now then now + a.params.time_buffer
        else a.end_time
      let a1 : Auction := { a with amount := total, bidder := onBehalf, end_time := newEnd }
      let s1 : HouseState :=
        { s with auctions := s.auctions.set (id - 1) a1,
                 pending := pending2,
                 balance := s.balance + transferAmount }
      if a.params.instabuy_price ≠ 0 ∧ a.params.instabuy_price ≤ total then
        let a2 : Auction := { a1 with settled := true }
        let s2 : HouseState := { s1 with auctions := s1.auctions.set (id - 1) a2 }
        let r := distribute s2 a2
        .ok (r.1, Transfer.pull onBehalf transferAmount :: r.2)
      else
        .ok (s1, [Transfer.pull onBehalf transferAmount])

/-- Modelled from the spec: collect and zero the pending-return entries
of one account over a batch of auction ids, entry by entry, so that a
duplicate id contributes nothing on its second occurrence (§4.2). -/
def collectMany (acct : Addr) :
    List ((Nat × Addr) × Nat) → List Nat → List ((Nat × Addr) × Nat) × Nat
  | pend, [] => (pend, 0)
  | pend, id :: rest =>
    let p := mapGet 0 pend (id, acct)
    let r := collectMany acct (mapSet pend (id, acct) 0) rest
    (r.1, p + r.2)

/-- Total pending-return balance of one account across all auctions. -/
def accountTotal (l : List ((Nat × Addr) × Nat)) (acct : Addr) : Nat :=
  (l.map (fun e => if e.1.2 = acct then e.2 else 0)).sum

/-- Zero every pending-return entry of one account. -/
def clearAccount (l : List ((Nat × Addr) × Nat)) (acct : Addr) :
    List ((Nat × Addr) × Nat) :=
  l.map (fun e => if e.1.2 = acct then (e.1, 0) else e)

/-- Modelled from the spec: the admin stale sweep over a list of
accounts — collect each account's pending returns, deduct the fee, and
forward the remainder (§4.3). -/
def sweepAccounts (fee_percent precision fee_receiver : Nat) :
    List ((Nat × Addr) × Nat) → Nat → List Addr →
    List ((Nat × Addr) × Nat) × Nat × List Transfer
  | pend, bal, [] => (pend, bal, [])
  | pend, bal, acct :: rest =>
    let tot := accountTotal pend acct
    let fee := tot * fee_percent / precision
    let r := sweepAccounts fee_percent precision fee_receiver
      (clearAccount pend acct) (bal - tot) rest
    (r.1, r.2.1, Transfer.push fee_receiver fee :: Transfer.push acct (tot - fee) :: r.2.2)

/-- Bound on a withdraw_multiple batch (§4.2: oversized lists are
rejected outright). -/
def maxWithdrawals : Nat := 100

/-- The externally callable operations of the engine, each carrying its
caller and, where time matters, the call's timestamp. -/
inductive Op
  | createAuction (caller : Addr) (now : Nat) (params : AuctionParams)
  | createBid (caller onBehalf : Addr) (now id total : Nat)
  | createBidWithToken (caller onBehalf : Addr) (now id converted minTotalOut : Nat)
  | withdraw (caller onBehalf : Addr) (id : Nat)
  | withdrawMultiple (caller onBehalf : Addr) (ids : List Nat)
  | settleAuction (caller : Addr) (now id : Nat)
  | nullifyAuction (caller : Addr) (id : Nat)
  | sweepStale (caller : Addr) (accounts : List Addr)
  | setApprovedCaller (caller delegate : Addr) (level : ApprovalStatus)
  | pause (caller : Addr)
  | unpause (caller : Addr)
deriving DecidableEq, Repr

/-- Modelled from the spec: `create_new_auction` — owner-only, gated by
pause, appends a fresh auction with the next id. -/
def createAuctionF (s : HouseState) (caller : Addr) (now : Nat) (p : AuctionParams) :
    Except Err (HouseState × List Transfer) :=
  if s.paused then .error .whenPaused
  else if caller ≠ s.owner then .error .notOwner
  else .ok ({ s with auctions := s.auctions ++
      [{ amount := 0, bidder := 0, start_time := now,
         end_time := now + p.duration, settled := false, params := p }] }, [])

/-- Modelled from the spec: `create_bid` — pause gate, delegation
check, then the shared bid core. -/
def createBidF (s : HouseState) (caller onBehalf : Addr) (now id total : Nat) :
    Except Err (HouseState × List Transfer) :=
  if s.paused then .error .whenPaused
  else if onBehalf = 0 then .error .nullAccount
  else if ¬ canBid s onBehalf caller then .error .notApproved
  else bidCore s onBehalf now id total

/-- Modelled from the spec: `create_bid_with_token` — the adapter's
converted payment-asset output becomes the marginal contribution on top
of the bidder's existing credit, the resulting total is slippage-checked
against `min_total_out`, then the shared bid core runs (§4.1). -/
def createBidWithTokenF (s : HouseState) (caller onBehalf : Addr)
    (now id converted minTotalOut : Nat) :
    Except Err (HouseState × List Transfer) :=
  if s.paused then .error .whenPaused
  else if onBehalf = 0 then .error .nullAccount
  else if ¬ canBid s onBehalf caller then .error .notApproved
  else
    match s.auction id with
    | none => .error .auctionMissing
    | some a =>
      let total := converted + priorOf s a id onBehalf
      if total < minTotalOut then .error .slippage
      else bidCore s onBehalf now id total

/-- Modelled from the spec: `withdraw` — pause gate, delegation check,
strictly positive pending entry required, entry zeroed, funds pushed
out (§4.2). -/
def withdrawF (s : HouseState) (caller onBehalf : Addr) (id : Nat) :
    Except Err (HouseState × List Transfer) :=
  if s.paused then .error .whenPaused
  else if ¬ canWithdraw s onBehalf caller then .error .notApproved
  else
    let p := s.pendingOf id onBehalf
    if p = 0 then .error .nothingPending
    else .ok ({ s with pending := mapSet s.pending (id, onBehalf) 0,
                       balance := s.balance - p },
              [Transfer.push onBehalf p])

/-- Modelled from the spec: `withdraw_multiple` — bounded batch, each
entry zeroed as it is processed, an all-zero batch is an error (§4.2). -/
def withdrawMultipleF (s : HouseState) (caller onBehalf : Addr) (ids : List Nat) :
    Except Err (HouseState × List Transfer) :=
  if s.paused then .error .whenPaused
  else if ¬ canWithdraw s onBehalf caller then .error .notApproved
  else if maxWithdrawals < ids.length then .error .batchTooLarge
  else
    let r := collectMany onBehalf s.pending ids
    if r.2 = 0 then .error .nothingPending
    else .ok ({ s with pending := r.1, balance := s.balance - r.2 },
              [Transfer.push onBehalf r.2])

/-- Modelled from the spec: `settle_auction` — callable by anyone once
`now > end_time`, exactly once; distributes the fee split (§4.3). -/
def settleAuctionF (s : HouseState) (now id : Nat) :
    Except Err (HouseState × List Transfer) :=
  if s.paused then .error .whenPaused
  else
    match s.auction id with
    | none => .error .auctionMissing
    | some a =>
      if a.settled then .error .alreadySettled
      else if now ≤ a.end_time then .error .notComplete
      else
        let a1 : Auction := { a with settled := true }
        let s1 : HouseState := { s with auctions := s.auctions.set (id - 1) a1 }
        let r := distribute s1 a1
        .ok r

/-- Modelled from the spec: `nullify_auction` — owner-only, rejects an
already-settled auction, available while paused; voids the lot and
converts the displaced winner's amount into a pending return, taking no
fee (§4.3). -/
def nullifyAuctionF (s : HouseState) (caller : Addr) (id : Nat) :
    Except Err (HouseState × List Transfer) :=
  if caller ≠ s.owner then .error .notOwner
  else
    match s.auction id with
    | none => .error .auctionMissing
    | some a =>
      if a.settled then .error .alreadySettled
      else
        let pending1 :=
          if a.bidder ≠ 0 then
            mapSet s.pending (id, a.bidder) (mapGet 0 s.pending (id, a.bidder) + a.amount)
          else s.pending
        let a1 : Auction := { a with amount := 0, bidder := 0, settled := true }
        .ok ({ s with auctions := s.auctions.set (id - 1) a1, pending := pending1 }, [])

/-- Modelled from the spec: `sweep_stale` — owner-only admin release of
abandoned pending returns, fee deducted per account (§4.3). -/
def sweepStaleF (s : HouseState) (caller : Addr) (accounts : List Addr) :
    Except Err (HouseState × List Transfer) :=
  if s.paused then .error .whenPaused
  else if caller ≠ s.owner then .error .notOwner
  else
    let r := sweepAccounts s.fee_percent s.precision s.fee_receiver
      s.pending s.balance accounts
    .ok ({ s with pending := r.1, balance := r.2.1 }, r.2.2)

/-- Modelled from the spec: `set_approved_caller` — the principal sets
the level of one of its own delegates (§4.4). -/
def setApprovedCallerF (s : HouseState) (caller delegate : Addr) (level : ApprovalStatus) :
    Except Err (HouseState × List Transfer) :=
  if s.paused then .error .whenPaused
  else .ok ({ s with approved := mapSet s.approved (caller, delegate) level }, [])

/-- Modelled from the spec: owner-only pause / unpause (§4.3). -/
def setPausedF (s : HouseState) (caller : Addr) (b : Bool) :
    Except Err (HouseState × List Transfer) :=
  if caller ≠ s.owner then .error .notOwner
  else .ok ({ s with paused := b }, [])

/-- One step of the engine: dispatch an operation to its entry point. -/
def exec (op : Op) (s : HouseState) : Except Err (HouseState × List Transfer) :=
  match op with
  | .createAuction caller now p => createAuctionF s caller now p
  | .createBid caller onBehalf now id total => createBidF s caller onBehalf now id total
  | .createBidWithToken caller onBehalf now id conv minOut =>
      createBidWithTokenF s caller onBehalf now id conv minOut
  | .withdraw caller onBehalf id => withdrawF s caller onBehalf id
  | .withdrawMultiple caller onBehalf ids => withdrawMultipleF s caller onBehalf ids
  | .settleAuction _ now id => settleAuctionF s now id
  | .nullifyAuction caller id => nullifyAuctionF s caller id
  | .sweepStale caller accounts => sweepStaleF s caller accounts
  | .setApprovedCaller caller delegate level => setApprovedCallerF s caller delegate level
  | .pause caller => setPausedF s caller true
  | .unpause caller => setPausedF s caller false

/-- Run a sequence of operations, failing as soon as one fails; the
transfers of all steps are concatenated. -/
def execTrace : List Op → HouseState → Except Err (HouseState × List Transfer)
  | [], s => .ok (s, [])
  | op :: rest, s =>
    match exec op s with
    | .error e => .error e
    | .ok (s1, tr) =>
      match execTrace rest s1 with
      | .error e => .error e
      | .ok (s2, tr2) => .ok (s2, tr ++ tr2)

/-- A freshly deployed engine: no auctions, empty ledgers, zero
balance. -/
def initHouse (owner fee_receiver fee_percent precision : Nat) : HouseState :=
  { auctions := [], pending := [], approved := [], owner := owner,
    fee_receiver := fee_receiver, fee_percent := fee_percent,
    precision := precision, paused := false, balance := 0 }

/-- Sum of all pending-return entries. -/
def sumP (l : List ((Nat × Addr) × Nat)) : Nat := (l.map (·.2)).sum

/-- A live (unsettled) auction's escrowed winning amount. -/
def liveAmount (a : Auction) : Nat := if a.settled then 0 else a.amount

/-- Sum of winning-bid amounts over all unsettled auctions. -/
def sumLive (l : List Auction) : Nat := (l.map liveAmount).sum

/-- The escrow ledger invariant: the engine's payment-asset balance is
exactly the live winning bids plus all pending returns, and an auction
without a bidder holds no amount. -/
def goodState (s : HouseState) : Prop :=
  s.balance = sumLive s.auctions + sumP s.pending ∧
  ∀ a ∈ s.auctions, a.bidder = 0 → a.amount = 0

theorem mapGet_mapSet_self {κ ν : Type} [DecidableEq κ] (d : ν) (l : List (κ × ν)) (k : κ) (v : ν) :
    mapGet d (mapSet l k v) k = v := by
  induction l with
  | nil => simp [mapSet, mapGet]
  | cons e t ih =>
    by_cases h : e.1 = k
    · simp [mapSet, h, mapGet]
    · simp [mapSet, h, mapGet, ih]

theorem mapGet_mapSet_other {κ ν : Type} [DecidableEq κ] (d : ν) (l : List (κ × ν)) (k k' : κ) (v : ν)
    (hne : k' ≠ k) : mapGet d (mapSet l k v) k' = mapGet d l k' := by
  have hkk : ¬ (k = k') := fun h => hne h.symm
  induction l with
  | nil => simp only [mapSet, mapGet, if_neg hkk]
  | cons e t ih =>
    by_cases h : e.1 = k
    · have h3 : ¬ (e.1 = k') := by rw [h]; exact hkk
      simp only [mapSet, if_pos h, mapGet, if_neg hkk, if_neg h3]
    · by_cases h2 : e.1 = k'
      · simp only [mapSet, if_neg h, mapGet, if_pos h2]
      · simp only [mapSet, if_neg h, mapGet, if_neg h2, ih]

theorem sumP_mapSet (l : List ((Nat × Addr) × Nat)) (k : Nat × Addr) (v : Nat) :
    sumP (mapSet l k v) + mapGet 0 l k = sumP l + v := by
  induction l with
  | nil => simp [mapSet, mapGet, sumP]
  | cons e t ih =>
    by_cases h : e.1 = k
    · simp [mapSet, h, mapGet, sumP]
      omega
    · simp only [mapSet, if_neg h, mapGet, sumP, List.map_cons, List.sum_cons] at *
      omega

theorem mapGet_le_sumP (l : List ((Nat × Addr) × Nat)) (k : Nat × Addr) :
    mapGet 0 l k ≤ sumP l := by
  induction l with
  | nil => simp [mapGet]
  | cons e t ih =>
    by_cases h : e.1 = k
    · simp only [mapGet, if_pos h, sumP, List.map_cons, List.sum_cons]
      omega
    · simp only [mapGet, if_neg h, sumP, List.map_cons, List.sum_cons] at *
      omega

theorem sumP_clearAccount (l : List ((Nat × Addr) × Nat)) (acct : Addr) :
    sumP (clearAccount l acct) + accountTotal l acct = sumP l := by
  induction l with
  | nil => simp [clearAccount, accountTotal, sumP]
  | cons e t ih =>
    by_cases h : e.1.2 = acct
    · simp only [clearAccount, accountTotal, sumP, List.map_cons, List.sum_cons,
        if_pos h] at *
      omega
    · simp only [clearAccount, accountTotal, sumP, List.map_cons, List.sum_cons,
        if_neg h] at *
      omega

theorem sumLive_set (l : List Auction) (i : Nat) (a b : Auction) (h : l.get? i = some b) :
    sumLive (l.set i a) + liveAmount b = sumLive l + liveAmount a := by
  induction l generalizing i with
  | nil => simp at h
  | cons x t ih =>
    cases i with
    | zero =>
      simp only [List.get?] at h
      cases h
      simp only [List.set, sumLive, List.map_cons, List.sum_cons]
      omega
    | succ n =>
      simp only [List.get?] at h
      have := ih n h
      simp only [List.set, sumLive, List.map_cons, List.sum_cons] at *
      omega

theorem liveAmount_le_sumLive (l : List Auction) (i : Nat) (a : Auction)
    (h : l.get? i = some a) : liveAmount a ≤ sumLive l := by
  induction l generalizing i with
  | nil => simp at h
  | cons x t ih =>
    cases i with
    | zero =>
      simp only [List.get?] at h
      cases h
      simp only [sumLive, List.map_cons, List.sum_cons]
      omega
    | succ n =>
      simp only [List.get?] at h
      have := ih n h
      simp only [sumLive, List.map_cons, List.sum_cons] at *
      omega

theorem collectMany_sum (acct : Addr) (ids : List Nat) :
    ∀ pend, sumP (collectMany acct pend ids).1 + (collectMany acct pend ids).2 = sumP pend := by
  induction ids with
  | nil => intro pend; simp [collectMany]
  | cons id rest ih =>
    intro pend
    have h1 := sumP_mapSet pend (id, acct) 0
    have h2 := ih (mapSet pend (id, acct) 0)
    simp only [collectMany]
    omega

theorem getQ_set_self {α : Type} (l : List α) (n : Nat) (a b : α) (h : l.get? n = some b) :
    (l.set n a).get? n = some a := by
  have h2 : n < l.length := by
    by_contra hc
    rw [List.get?_eq_none.mpr (by omega)] at h
    cases h
  rw [List.get?_eq_getElem?, List.getElem?_set_self']
  simp [List.getElem?_eq_getElem h2]

theorem getQ_set_other {α : Type} (l : List α) (i j : Nat) (a : α) (h : i ≠ j) :
    (l.set i a).get? j = l.get? j := by
  rw [List.get?_eq_getElem?, List.get?_eq_getElem?, List.getElem?_set_ne h]

theorem sweepAccounts_conserves (fp pr fr L : Nat) (accounts : List Addr) :
    ∀ pend bal, bal = L + sumP pend →
      (sweepAccounts fp pr fr pend bal accounts).2.1 =
        L + sumP (sweepAccounts fp pr fr pend bal accounts).1 := by
  induction accounts with
  | nil => intro pend bal h; simpa [sweepAccounts] using h
  | cons acct rest ih =>
    intro pend bal h
    have h1 := sumP_clearAccount pend acct
    have h2 := ih (clearAccount pend acct) (bal - accountTotal pend acct) (by omega)
    simpa only [sweepAccounts] using h2

theorem bidCore_conserves (s : HouseState) (onBehalf : Addr) (now id total : Nat)
    (s' : HouseState) (tr : List Transfer)
    (hnb : onBehalf ≠ 0)
    (h : bidCore s onBehalf now id total = .ok (s', tr))
    (hg : goodState s) : goodState s' := by
  obtain ⟨hbal, hb0⟩ := hg
  unfold bidCore at h
  cases ha : s.auction id with
  | none => rw [ha] at h; exact absurd h (by simp)
  | some a =>
    rw [ha] at h
    have hid : ¬ id = 0 := by
      intro h0
      rw [HouseState.auction, if_pos h0] at ha
      cases ha
    have hget : s.auctions.get? (id - 1) = some a := by
      rw [HouseState.auction, if_neg hid] at ha
      exact ha
    have hmem : a ∈ s.auctions := List.get?_mem hget
    dsimp only [] at h
    split at h
    · exact absurd h (by simp)
    split at h
    · exact absurd h (by simp)
    split at h
    · exact absurd h (by simp)
    split at h
    · exact absurd h (by simp)
    split at h
    · exact absurd h (by simp)
    rename_i hset hexp hres hinc hins
    have hple1 : mapGet 0 s.pending (id, onBehalf) ≤ sumP s.pending :=
      mapGet_le_sumP s.pending (id, onBehalf)
    have hple2 : liveAmount a ≤ sumLive s.auctions :=
      liveAmount_le_sumLive s.auctions (id - 1) a hget
    have hlA : liveAmount a = a.amount := by simp [liveAmount, hset]
    have hprior : priorOf s a id onBehalf ≤ total := not_lt.mp hins
    have hpv : priorOf s a id onBehalf =
        (if a.bidder = onBehalf then a.amount else 0) + mapGet 0 s.pending (id, onBehalf) := rfl
    have hP1 := sumP_mapSet s.pending (id, onBehalf) 0
    split at h
    · -- instabuy: bid accepted then immediately settled
      rename_i hbuy
      simp only [distribute, if_neg hnb] at h
      simp only [Except.ok.injEq, Prod.mk.injEq] at h
      obtain ⟨hs, htr⟩ := h
      subst hs
      constructor
      · have hL1 := sumLive_set s.auctions (id - 1)
          { amount := total, bidder := onBehalf, start_time := a.start_time,
            end_time := if a.end_time - a.params.time_buffer < now
              then now + a.params.time_buffer else a.end_time,
            settled := a.settled, params := a.params } a hget
        rw [hlA] at hL1
        have hlA1 : liveAmount
            { amount := total, bidder := onBehalf, start_time := a.start_time,
              end_time := if a.end_time - a.params.time_buffer < now
                then now + a.params.time_buffer else a.end_time,
              settled := a.settled, params := a.params } = total := by
          simp [liveAmount, hset]
        rw [hlA1] at hL1
        have hL2 := sumLive_set
          (s.auctions.set (id - 1)
            { amount := total, bidder := onBehalf, start_time := a.start_time,
              end_time := if a.end_time - a.params.time_buffer < now
                then now + a.params.time_buffer else a.end_time,
              settled := a.settled, params := a.params }) (id - 1)
          { amount := total, bidder := onBehalf, start_time := a.start_time,
            end_time := if a.end_time - a.params.time_buffer < now
              then now + a.params.time_buffer else a.end_time,
            settled := true, params := a.params }
          { amount := total, bidder := onBehalf, start_time := a.start_time,
            end_time := if a.end_time - a.params.time_buffer < now
              then now + a.params.time_buffer else a.end_time,
            settled := a.settled, params := a.params }
          (getQ_set_self s.auctions (id - 1) _ a hget)
        rw [hlA1] at hL2
        have hlA2 : liveAmount
            { amount := total, bidder := onBehalf, start_time := a.start_time,
              end_time := if a.end_time - a.params.time_buffer < now
                then now + a.params.time_buffer else a.end_time,
              settled := true, params := a.params } = 0 := by
          simp [liveAmount]
        rw [hlA2] at hL2
        by_cases hdisp : a.bidder ≠ 0 ∧ a.bidder ≠ onBehalf
        · have hP2 := sumP_mapSet (mapSet s.pending (id, onBehalf) 0) (id, a.bidder)
            (mapGet 0 (mapSet s.pending (id, onBehalf) 0) (id, a.bidder) + a.amount)
          rw [if_neg hdisp.2] at hpv
          simp only [if_pos hdisp]
          rw [hpv] at hprior ⊢
          simp only [hlA] at hple2
          omega
        · simp only [if_neg hdisp]
          rcases Decidable.not_and_iff_or_not.mp hdisp with hb | hb
          · have hbz : a.bidder = 0 := Decidable.not_not.mp hb
            have haz : a.amount = 0 := hb0 a hmem hbz
            rw [if_neg (by rw [hbz]; exact fun hh => hnb hh.symm)] at hpv
            rw [hpv] at hprior ⊢
            simp only [hlA, haz] at hple2 hL1 hbal ⊢
            omega
          · have hbe : a.bidder = onBehalf := Decidable.not_not.mp hb
            rw [if_pos hbe] at hpv
            rw [hpv] at hprior ⊢
            simp only [hlA] at hple2
            omega
      · intro x hx hxb
        rcases List.mem_or_eq_of_mem_set hx with hx2 | hEq
        · rcases List.mem_or_eq_of_mem_set hx2 with hx3 | hEq2
          · exact hb0 x hx3 hxb
          · subst hEq2
            simp only [] at hxb
            exact absurd hxb hnb
        · subst hEq
          simp only [] at hxb
          exact absurd hxb hnb
    · -- no instabuy
      rename_i hbuy
      simp only [Except.ok.injEq, Prod.mk.injEq] at h
      obtain ⟨hs, htr⟩ := h
      subst hs
      constructor
      · -- balance equation
        have hL1 := sumLive_set s.auctions (id - 1)
          { amount := total, bidder := onBehalf, start_time := a.start_time,
            end_time := if a.end_time - a.params.time_buffer < now
              then now + a.params.time_buffer else a.end_time,
            settled := a.settled, params := a.params } a hget
        rw [hlA] at hL1
        have hlA1 : liveAmount
            { amount := total, bidder := onBehalf, start_time := a.start_time,
              end_time := if a.end_time - a.params.time_buffer < now
                then now + a.params.time_buffer else a.end_time,
              settled := a.settled, params := a.params } = total := by
          simp [liveAmount, hset]
        rw [hlA1] at hL1
        by_cases hdisp : a.bidder ≠ 0 ∧ a.bidder ≠ onBehalf
        · have hP2 := sumP_mapSet (mapSet s.pending (id, onBehalf) 0) (id, a.bidder)
            (mapGet 0 (mapSet s.pending (id, onBehalf) 0) (id, a.bidder) + a.amount)
          rw [if_neg hdisp.2] at hpv
          simp only [if_pos hdisp]
          rw [hpv] at hprior ⊢
          simp only [hlA] at hple2
          omega
        · simp only [if_neg hdisp]
          rcases Decidable.not_and_iff_or_not.mp hdisp with hb | hb
        -- wait, not (A ∧ B) with A = bidder ≠ 0, B = bidder ≠ onBehalf
          · -- bidder = 0
            have hbz : a.bidder = 0 := Decidable.not_not.mp hb
            have haz : a.amount = 0 := hb0 a hmem hbz
            rw [if_neg (by rw [hbz]; exact fun hh => hnb hh.symm)] at hpv
            rw [hpv] at hprior ⊢
            simp only [hlA, haz] at hple2 hL1 hbal ⊢
            omega
          · -- bidder = onBehalf
            have hbe : a.bidder = onBehalf := Decidable.not_not.mp hb
            rw [if_pos hbe] at hpv
            rw [hpv] at hprior ⊢
            simp only [hlA] at hple2
            omega
      · intro x hx hxb
        rcases List.mem_or_eq_of_mem_set hx with hmem2 | hEq
        · exact hb0 x hmem2 hxb
        · subst hEq
          simp only [] at hxb
          exact absurd hxb hnb

theorem createAuctionF_conserves (s : HouseState) (caller : Addr) (now : Nat) (p : AuctionParams)
    (s' : HouseState) (tr : List Transfer)
    (h : createAuctionF s caller now p = .ok (s', tr)) (hg : goodState s) : goodState s' := by
  obtain ⟨hbal, hb0⟩ := hg
  unfold createAuctionF at h
  split at h
  · exact absurd h (by simp)
  split at h
  · exact absurd h (by simp)
  simp only [Except.ok.injEq, Prod.mk.injEq] at h
  obtain ⟨hs, htr⟩ := h
  subst hs
  constructor
  · simp only [sumLive, List.map_append, List.sum_append, List.map_cons, List.sum_cons,
      List.map_nil, List.sum_nil, liveAmount] at *
    simpa using hbal
  · intro x hx hxb
    rcases List.mem_append.mp hx with hx1 | hx1
    · exact hb0 x hx1 hxb
    · have := List.mem_singleton.mp hx1
      subst this
      rfl

theorem withdrawF_conserves (s : HouseState) (caller onBehalf : Addr) (id : Nat)
    (s' : HouseState) (tr : List Transfer)
    (h : withdrawF s caller onBehalf id = .ok (s', tr)) (hg : goodState s) : goodState s' := by
  obtain ⟨hbal, hb0⟩ := hg
  unfold withdrawF at h
  split at h
  · exact absurd h (by simp)
  split at h
  · exact absurd h (by simp)
  dsimp only [] at h
  split at h
  · exact absurd h (by simp)
  simp only [Except.ok.injEq, Prod.mk.injEq] at h
  obtain ⟨hs, htr⟩ := h
  subst hs
  refine ⟨?_, hb0⟩
  have hP := sumP_mapSet s.pending (id, onBehalf) 0
  have hle := mapGet_le_sumP s.pending (id, onBehalf)
  simp only [HouseState.pendingOf] at *
  omega

theorem withdrawMultipleF_conserves (s : HouseState) (caller onBehalf : Addr) (ids : List Nat)
    (s' : HouseState) (tr : List Transfer)
    (h : withdrawMultipleF s caller onBehalf ids = .ok (s', tr)) (hg : goodState s) :
    goodState s' := by
  obtain ⟨hbal, hb0⟩ := hg
  unfold withdrawMultipleF at h
  split at h
  · exact absurd h (by simp)
  split at h
  · exact absurd h (by simp)
  split at h
  · exact absurd h (by simp)
  dsimp only [] at h
  split at h
  · exact absurd h (by simp)
  simp only [Except.ok.injEq, Prod.mk.injEq] at h
  obtain ⟨hs, htr⟩ := h
  subst hs
  refine ⟨?_, hb0⟩
  have hC := collectMany_sum onBehalf ids s.pending
  dsimp only []
  omega

theorem settleAuctionF_conserves (s : HouseState) (now id : Nat)
    (s' : HouseState) (tr : List Transfer)
    (h : settleAuctionF s now id = .ok (s', tr)) (hg : goodState s) : goodState s' := by
  obtain ⟨hbal, hb0⟩ := hg
  unfold settleAuctionF at h
  split at h
  · exact absurd h (by simp)
  cases ha : s.auction id with
  | none => rw [ha] at h; exact absurd h (by simp)
  | some a =>
    rw [ha] at h
    have hid : ¬ id = 0 := by
      intro h0
      rw [HouseState.auction, if_pos h0] at ha
      cases ha
    have hget : s.auctions.get? (id - 1) = some a := by
      rw [HouseState.auction, if_neg hid] at ha
      exact ha
    have hmem : a ∈ s.auctions := List.get?_mem hget
    dsimp only [] at h
    split at h
    · exact absurd h (by simp)
    split at h
    · exact absurd h (by simp)
    rename_i hset hend
    have hL := sumLive_set s.auctions (id - 1) { a with settled := true } a hget
    have hlA : liveAmount a = a.amount := by simp [liveAmount, hset]
    have hlA1 : liveAmount ({ a with settled := true } : Auction) = 0 := by
      simp [liveAmount]
    rw [hlA, hlA1] at hL
    have hple2 : liveAmount a ≤ sumLive s.auctions :=
      liveAmount_le_sumLive s.auctions (id - 1) a hget
    rw [hlA] at hple2
    simp only [distribute] at h
    split at h
    · -- no winning bid
      rename_i hbz
      simp only [Except.ok.injEq, Prod.mk.injEq] at h
      obtain ⟨hs, htr⟩ := h
      subst hs
      have haz : a.amount = 0 := hb0 a hmem hbz
      refine ⟨by dsimp only []; omega, ?_⟩
      intro x hx hxb
      rcases List.mem_or_eq_of_mem_set hx with hx1 | hEq
      · exact hb0 x hx1 hxb
      · subst hEq
        exact hb0 a hmem hxb
    · rename_i hbz
      simp only [Except.ok.injEq, Prod.mk.injEq] at h
      obtain ⟨hs, htr⟩ := h
      subst hs
      refine ⟨by dsimp only []; omega, ?_⟩
      intro x hx hxb
      rcases List.mem_or_eq_of_mem_set hx with hx1 | hEq
      · exact hb0 x hx1 hxb
      · subst hEq
        exact hb0 a hmem hxb

theorem nullifyAuctionF_conserves (s : HouseState) (caller : Addr) (id : Nat)
    (s' : HouseState) (tr : List Transfer)
    (h : nullifyAuctionF s caller id = .ok (s', tr)) (hg : goodState s) : goodState s' := by
  obtain ⟨hbal, hb0⟩ := hg
  unfold nullifyAuctionF at h
  split at h
  · exact absurd h (by simp)
  cases ha : s.auction id with
  | none => rw [ha] at h; exact absurd h (by simp)
  | some a =>
    rw [ha] at h
    have hid : ¬ id = 0 := by
      intro h0
      rw [HouseState.auction, if_pos h0] at ha
      cases ha
    have hget : s.auctions.get? (id - 1) = some a := by
      rw [HouseState.auction, if_neg hid] at ha
      exact ha
    have hmem : a ∈ s.auctions := List.get?_mem hget
    dsimp only [] at h
    split at h
    · exact absurd h (by simp)
    rename_i hset
    have hL := sumLive_set s.auctions (id - 1)
      { a with amount := 0, bidder := 0, settled := true } a hget
    have hlA : liveAmount a = a.amount := by simp [liveAmount, hset]
    have hlA1 : liveAmount ({ a with amount := 0, bidder := 0, settled := true } : Auction) = 0 := by
      simp [liveAmount]
    rw [hlA, hlA1] at hL
    split at h
    · -- displaced winner credited
      rename_i hbz
      have hP := sumP_mapSet s.pending (id, a.bidder)
        (mapGet 0 s.pending (id, a.bidder) + a.amount)
      simp only [Except.ok.injEq, Prod.mk.injEq] at h
      obtain ⟨hs, htr⟩ := h
      subst hs
      refine ⟨by dsimp only []; omega, ?_⟩
      intro x hx hxb
      rcases List.mem_or_eq_of_mem_set hx with hx1 | hEq
      · exact hb0 x hx1 hxb
      · subst hEq
        rfl
    · rename_i hbz
      have hbz0 : a.bidder = 0 := Decidable.not_not.mp hbz
      have haz : a.amount = 0 := hb0 a hmem hbz0
      simp only [Except.ok.injEq, Prod.mk.injEq] at h
      obtain ⟨hs, htr⟩ := h
      subst hs
      refine ⟨by dsimp only []; omega, ?_⟩
      intro x hx hxb
      rcases List.mem_or_eq_of_mem_set hx with hx1 | hEq
      · exact hb0 x hx1 hxb
      · subst hEq
        rfl

theorem sweepStaleF_conserves (s : HouseState) (caller : Addr) (accounts : List Addr)
    (s' : HouseState) (tr : List Transfer)
    (h : sweepStaleF s caller accounts = .ok (s', tr)) (hg : goodState s) : goodState s' := by
  obtain ⟨hbal, hb0⟩ := hg
  unfold sweepStaleF at h
  split at h
  · exact absurd h (by simp)
  split at h
  · exact absurd h (by simp)
  simp only [Except.ok.injEq, Prod.mk.injEq] at h
  obtain ⟨hs, htr⟩ := h
  subst hs
  refine ⟨?_, hb0⟩
  exact sweepAccounts_conserves s.fee_percent s.precision s.fee_receiver
    (sumLive s.auctions) accounts s.pending s.balance hbal

theorem setApprovedCallerF_conserves (s : HouseState) (caller delegate : Addr)
    (level : ApprovalStatus) (s' : HouseState) (tr : List Transfer)
    (h : setApprovedCallerF s caller delegate level = .ok (s', tr)) (hg : goodState s) :
    goodState s' := by
  unfold setApprovedCallerF at h
  split at h
  · exact absurd h (by simp)
  simp only [Except.ok.injEq, Prod.mk.injEq] at h
  obtain ⟨hs, htr⟩ := h
  subst hs
  exact hg

theorem setPausedF_conserves (s : HouseState) (caller : Addr) (b : Bool)
    (s' : HouseState) (tr : List Transfer)
    (h : setPausedF s caller b = .ok (s', tr)) (hg : goodState s) : goodState s' := by
  unfold setPausedF at h
  split at h
  · exact absurd h (by simp)
  simp only [Except.ok.injEq, Prod.mk.injEq] at h
  obtain ⟨hs, htr⟩ := h
  subst hs
  exact hg

theorem createBidF_conserves (s : HouseState) (caller onBehalf : Addr) (now id total : Nat)
    (s' : HouseState) (tr : List Transfer)
    (h : createBidF s caller onBehalf now id total = .ok (s', tr)) (hg : goodState s) :
    goodState s' := by
  unfold createBidF at h
  split at h
  · exact absurd h (by simp)
  split at h
  · exact absurd h (by simp)
  split at h
  · exact absurd h (by simp)
  rename_i hpz hnb hperm
  exact bidCore_conserves s onBehalf now id total s' tr hnb h hg

theorem createBidWithTokenF_conserves (s : HouseState) (caller onBehalf : Addr)
    (now id converted minTotalOut : Nat) (s' : HouseState) (tr : List Transfer)
    (h : createBidWithTokenF s caller onBehalf now id converted minTotalOut = .ok (s', tr))
    (hg : goodState s) : goodState s' := by
  unfold createBidWithTokenF at h
  split at h
  · exact absurd h (by simp)
  split at h
  · exact absurd h (by simp)
  split at h
  · exact absurd h (by simp)
  rename_i hpz hnb hperm
  cases ha : s.auction id with
  | none => rw [ha] at h; exact absurd h (by simp)
  | some a =>
    rw [ha] at h
    dsimp only [] at h
    split at h
    · exact absurd h (by simp)
    exact bidCore_conserves s onBehalf now id _ s' tr hnb h hg

theorem exec_conserves (op : Op) (s s' : HouseState) (tr : List Transfer)
    (h : exec op s = .ok (s', tr)) (hg : goodState s) : goodState s' := by
  cases op with
  | createAuction caller now p => exact createAuctionF_conserves s caller now p s' tr h hg
  | createBid caller onBehalf now id total =>
    exact createBidF_conserves s caller onBehalf now id total s' tr h hg
  | createBidWithToken caller onBehalf now id conv minOut =>
    exact createBidWithTokenF_conserves s caller onBehalf now id conv minOut s' tr h hg
  | withdraw caller onBehalf id => exact withdrawF_conserves s caller onBehalf id s' tr h hg
  | withdrawMultiple caller onBehalf ids =>
    exact withdrawMultipleF_conserves s caller onBehalf ids s' tr h hg
  | settleAuction caller now id => exact settleAuctionF_conserves s now id s' tr h hg
  | nullifyAuction caller id => exact nullifyAuctionF_conserves s caller id s' tr h hg
  | sweepStale caller accounts => exact sweepStaleF_conserves s caller accounts s' tr h hg
  | setApprovedCaller caller delegate level =>
    exact setApprovedCallerF_conserves s caller delegate level s' tr h hg
  | pause caller => exact setPausedF_conserves s caller true s' tr h hg
  | unpause caller => exact setPausedF_conserves s caller false s' tr h hg

theorem execTrace_conserves (ops : List Op) :
    ∀ s s' tr, execTrace ops s = .ok (s', tr) → goodState s → goodState s' := by
  induction ops with
  | nil =>
    intro s s' tr h hg
    simp only [execTrace, Except.ok.injEq, Prod.mk.injEq] at h
    obtain ⟨hs, htr⟩ := h
    subst hs
    exact hg
  | cons op rest ih =>
    intro s s' tr h hg
    unfold execTrace at h
    cases h1 : exec op s with
    | error e => rw [h1] at h; exact absurd h (by simp)
    | ok p =>
      rw [h1] at h
      obtain ⟨s1, tr1⟩ := p
      dsimp only [] at h
      cases h2 : execTrace rest s1 with
      | error e => rw [h2] at h; exact absurd h (by simp)
      | ok q =>
        rw [h2] at h
        obtain ⟨s2, tr2⟩ := q
        dsimp only [] at h
        simp only [Except.ok.injEq, Prod.mk.injEq] at h
        obtain ⟨hs, htr⟩ := h
        subst hs
        exact ih s1 s2 tr2 h2 (exec_conserves op s s1 tr1 h1 hg)

/-- Claim C1: Conservation of escrow — after every successful operation
(any sequence of bids, token bids, withdrawals, batched withdrawals,
settlements, nullifications, stale sweeps by any callers), the
payment-asset balance held by the engine equals the sum of winning-bid
amounts of all unsettled auctions plus the sum of all pending-return
entries across all (auction id, account) pairs. -/
theorem conservation_of_escrow (ops : List Op) (owner fr fp pr : Nat)
    (s' : HouseState) (tr : List Transfer)
    (h : execTrace ops (initHouse owner fr fp pr) = .ok (s', tr)) :
    s'.balance = sumLive s'.auctions + sumP s'.pending := by
  have hg : goodState (initHouse owner fr fp pr) := by
    constructor
    · simp [initHouse, sumLive, sumP]
    · intro a ha
      simp [initHouse] at ha
  exact (execTrace_conserves ops _ s' tr h hg).1

/-- Default-style auction parameters used by concrete scenarios:
reserve 100, 5% increment at precision 100, no instabuy. -/
def demoParams : AuctionParams :=
  { time_buffer := 100, reserve_price := 100, min_bid_increment_percentage := 5,
    duration := 1000, instabuy_price := 0, beneficiary := 0 }

/-- A concrete operation sequence: create an auction, two competing
bids, the displaced bidder withdraws, the auction settles. -/
def demoOps : List Op :=
  [Op.createAuction 1 0 demoParams,
   Op.createBid 3 3 10 1 100,
   Op.createBid 4 4 20 1 105,
   Op.withdraw 3 3 1,
   Op.settleAuction 5 1001 1]

/-- The engine state demoOps ends in. -/
def demoFinal : HouseState :=
  { auctions := [{ amount := 105, bidder := 4, start_time := 0, end_time := 1000,
                   settled := true, params := demoParams }],
    pending := [((1, 3), 0), ((1, 4), 0)],
    approved := [], owner := 1, fee_receiver := 2, fee_percent := 5,
    precision := 100, paused := false, balance := 0 }

/-- The transfers demoOps produces. -/
def demoTransfers : List Transfer :=
  [Transfer.pull 3 100, Transfer.pull 4 105, Transfer.push 3 100,
   Transfer.push 2 5, Transfer.push 1 100]

/-- Witness for C1 at a concrete five-operation trace. -/
theorem conservation_of_escrow_witness :
    execTrace demoOps (initHouse 1 2 5 100) = .ok (demoFinal, demoTransfers) ∧
    demoFinal.balance = sumLive demoFinal.auctions + sumP demoFinal.pending :=
  ⟨by rfl, conservation_of_escrow demoOps 1 2 5 100 demoFinal demoTransfers (by rfl)⟩

/-- The payment-asset amounts pulled into the engine during a call
(ignoring outgoing pushes). -/
def pullsOf (tr : List Transfer) : List Transfer :=
  tr.filter (fun t => match t with | .pull _ _ => true | .push _ _ => false)

theorem bidCore_pull (s : HouseState) (onBehalf : Addr) (now id total : Nat)
    (s' : HouseState) (tr : List Transfer) (a : Auction)
    (hnb : onBehalf ≠ 0)
    (ha : s.auction id = some a)
    (h : bidCore s onBehalf now id total = .ok (s', tr)) :
    pullsOf tr = [Transfer.pull onBehalf (total - priorOf s a id onBehalf)] ∧
    s'.pendingOf id onBehalf = 0 := by
  unfold bidCore at h
  rw [ha] at h
  dsimp only [] at h
  split at h
  · exact absurd h (by simp)
  split at h
  · exact absurd h (by simp)
  split at h
  · exact absurd h (by simp)
  split at h
  · exact absurd h (by simp)
  split at h
  · exact absurd h (by simp)
  split at h
  · -- instabuy branch
    rename_i hbuy
    simp only [distribute, if_neg hnb] at h
    simp only [Except.ok.injEq, Prod.mk.injEq] at h
    obtain ⟨hs, htr⟩ := h
    subst hs
    subst htr
    refine ⟨by simp [pullsOf, List.filter], ?_⟩
    dsimp only [HouseState.pendingOf]
    split
    · rename_i hdisp
      rw [mapGet_mapSet_other 0 _ _ _ _
        (fun hk => hdisp.2 ((congrArg Prod.snd hk).symm))]
      exact mapGet_mapSet_self 0 s.pending (id, onBehalf) 0
    · exact mapGet_mapSet_self 0 s.pending (id, onBehalf) 0
  · rename_i hbuy
    simp only [Except.ok.injEq, Prod.mk.injEq] at h
    obtain ⟨hs, htr⟩ := h
    subst hs
    subst htr
    refine ⟨by simp [pullsOf, List.filter], ?_⟩
    dsimp only [HouseState.pendingOf]
    split
    · rename_i hdisp
      rw [mapGet_mapSet_other 0 _ _ _ _
        (fun hk => hdisp.2 ((congrArg Prod.snd hk).symm))]
      exact mapGet_mapSet_self 0 s.pending (id, onBehalf) 0
    · exact mapGet_mapSet_self 0 s.pending (id, onBehalf) 0

/-- Claim C2: Rebid economy (marginal transfer) — when an account `x`
displaced from the winning position of auction `id` with pending return
`p` successfully rebids to total `t`, the payment asset pulled from `x`
is exactly `t - p` (never `t`) and `x`'s pending-return entry for the
auction is zeroed; and an account raising its own winning bid from `a`
to `t` transfers exactly `t - a`. -/
theorem rebid_economy (s : HouseState) (x : Addr) (now id t : Nat)
    (s' : HouseState) (tr : List Transfer) (a : Auction)
    (ha : s.auction id = some a)
    (h : exec (Op.createBid x x now id t) s = .ok (s', tr)) :
    (a.bidder ≠ x →
      pullsOf tr = [Transfer.pull x (t - s.pendingOf id x)] ∧ s'.pendingOf id x = 0) ∧
    (a.bidder = x → s.pendingOf id x = 0 →
      pullsOf tr = [Transfer.pull x (t - a.amount)]) := by
  simp only [exec] at h
  unfold createBidF at h
  split at h
  · exact absurd h (by simp)
  split at h
  · exact absurd h (by simp)
  split at h
  · exact absurd h (by simp)
  rename_i hpz hnb hperm
  have hcore := bidCore_pull s x now id t s' tr a hnb ha h
  constructor
  · intro hbx
    have hpr : priorOf s a id x = s.pendingOf id x := by
      simp [priorOf, if_neg hbx]
    rw [hpr] at hcore
    exact hcore
  · intro hbx hp0
    have hpr : priorOf s a id x = a.amount := by
      simp [priorOf, if_pos hbx, hp0]
    rw [hpr] at hcore
    exact hcore.1

/-- The auction record of the pre-rebid demo state. -/
def rebidAuction : Auction :=
  { amount := 105, bidder := 4, start_time := 0, end_time := 1000,
    settled := false, params := demoParams }

/-- Demo state in which account 3 bid 100, then account 4 outbid with
105, leaving account 3 a pending return of 100. -/
def rebidState : HouseState :=
  { auctions := [rebidAuction],
    pending := [((1, 3), 100), ((1, 4), 0)],
    approved := [], owner := 1, fee_receiver := 2, fee_percent := 5,
    precision := 100, paused := false, balance := 205 }

/-- State after account 3 rebids to 111 in the demo state. -/
def rebidFinal : HouseState :=
  { auctions := [{ amount := 111, bidder := 3, start_time := 0, end_time := 1000,
                   settled := false, params := demoParams }],
    pending := [((1, 3), 0), ((1, 4), 105)],
    approved := [], owner := 1, fee_receiver := 2, fee_percent := 5,
    precision := 100, paused := false, balance := 216 }

/-- Witness for C2: account 3, displaced with pending 100, rebids to
111 and is pulled exactly 11. -/
theorem rebid_economy_witness :
    (rebidAuction.bidder ≠ 3 →
      pullsOf [Transfer.pull 3 11] =
        [Transfer.pull 3 (111 - rebidState.pendingOf 1 3)] ∧
      rebidFinal.pendingOf 1 3 = 0) ∧
    (rebidAuction.bidder = 3 → rebidState.pendingOf 1 3 = 0 →
      pullsOf [Transfer.pull 3 11] = [Transfer.pull 3 (111 - rebidAuction.amount)]) :=
  rebid_economy rebidState 3 30 1 111 rebidFinal [Transfer.pull 3 11] rebidAuction
    (by rfl) (by rfl)

theorem bidCore_min (s : HouseState) (onBehalf : Addr) (now id total : Nat)
    (s' : HouseState) (tr : List Transfer) (a : Auction)
    (ha : s.auction id = some a)
    (h : bidCore s onBehalf now id total = .ok (s', tr)) :
    (a.bidder = 0 → a.params.reserve_price ≤ total) ∧
    (a.bidder ≠ 0 → minTotalBid s a ≤ total) := by
  unfold bidCore at h
  rw [ha] at h
  dsimp only [] at h
  split at h
  · exact absurd h (by simp)
  split at h
  · exact absurd h (by simp)
  split at h
  · exact absurd h (by simp)
  split at h
  · exact absurd h (by simp)
  rename_i hset hexp hres hinc
  constructor
  · intro hb0
    by_contra hlt
    exact hres ⟨hb0, by omega⟩
  · intro hbn
    by_contra hlt
    exact hinc ⟨hbn, by omega⟩

/-- A freshly created demo auction with reserve 100 and 5% increment. -/
def freshAuction : Auction :=
  { amount := 0, bidder := 0, start_time := 0, end_time := 1000,
    settled := false, params := demoParams }

/-- Demo engine holding one fresh auction and no bids. -/
def scnState : HouseState :=
  { auctions := [freshAuction], pending := [], approved := [], owner := 1,
    fee_receiver := 2, fee_percent := 5, precision := 100, paused := false,
    balance := 0 }

/-- The demo auction after account 3 bids the reserve price 100. -/
def scnAuction1 : Auction :=
  { amount := 100, bidder := 3, start_time := 0, end_time := 1000,
    settled := false, params := demoParams }

/-- Demo engine right after the opening bid of 100. -/
def scn1 : HouseState :=
  { auctions := [scnAuction1], pending := [((1, 3), 0)], approved := [],
    owner := 1, fee_receiver := 2, fee_percent := 5, precision := 100,
    paused := false, balance := 100 }

/-- Claim C3: Minimum-bid rule — a successful bid on an auction with no
bids has total at least the reserve price, and with a previous winning
amount `v` has total at least `v + v * increment_percent / precision`
(checked against the total, not the delta); a bid below the minimum
fails with the reserve or increment error; concretely with reserve 100
and 5% increment, bid 100 succeeds, a following 104 fails with the
increment error and 105 succeeds. -/
theorem minimum_bid_rule (s : HouseState) (caller x : Addr) (now id t : Nat)
    (s' : HouseState) (tr : List Transfer) (a : Auction)
    (ha : s.auction id = some a) :
    (exec (Op.createBid caller x now id t) s = .ok (s', tr) →
      (a.bidder = 0 → a.params.reserve_price ≤ t) ∧
      (a.bidder ≠ 0 →
        a.amount + a.amount * a.params.min_bid_increment_percentage / s.precision ≤ t)) ∧
    (s.paused = false → x ≠ 0 → canBid s x caller = true → a.settled = false →
     now ≤ a.end_time →
      (a.bidder = 0 → t < a.params.reserve_price →
        exec (Op.createBid caller x now id t) s = .error .belowReserve) ∧
      (a.bidder ≠ 0 → t < minTotalBid s a →
        exec (Op.createBid caller x now id t) s = .error .belowIncrement)) ∧
    (exec (Op.createBid 3 3 10 1 100) scnState = .ok (scn1, [Transfer.pull 3 100]) ∧
     exec (Op.createBid 4 4 20 1 104) scn1 = .error .belowIncrement ∧
     exec (Op.createBid 4 4 20 1 105) scn1 = .ok (rebidState, [Transfer.pull 4 105])) := by
  refine ⟨?_, ?_, by rfl, by rfl, by rfl⟩
  · intro h
    simp only [exec] at h
    unfold createBidF at h
    split at h
    · exact absurd h (by simp)
    split at h
    · exact absurd h (by simp)
    split at h
    · exact absurd h (by simp)
    have := bidCore_min s x now id t s' tr a ha h
    exact ⟨this.1, fun hb => by
      have h2 := this.2 hb
      rw [minTotalBid, if_neg hb] at h2
      exact h2⟩
  · intro hpz hx hcb hsettled hnow
    have hbid : (¬ canBid s x caller) = False := by simp [hcb]
    constructor
    · intro hb0 hlt
      simp only [exec]
      unfold createBidF
      rw [if_neg (by simp [hpz]), if_neg hx, if_neg (by simp [hcb])]
      unfold bidCore
      rw [ha]
      dsimp only []
      rw [if_neg (by simp [hsettled]), if_neg (by omega), if_pos ⟨hb0, hlt⟩]
    · intro hbn hlt
      simp only [exec]
      unfold createBidF
      rw [if_neg (by simp [hpz]), if_neg hx, if_neg (by simp [hcb])]
      unfold bidCore
      rw [ha]
      dsimp only []
      rw [if_neg (by simp [hsettled]), if_neg (by omega),
        if_neg (by intro hc; exact hbn hc.1), if_pos ⟨hbn, hlt⟩]

/-- Witness for C3 at the concrete scenario state (auction holding a
100 bid, challenger bidding 105). -/
theorem minimum_bid_rule_witness :
    (exec (Op.createBid 4 4 20 1 105) scn1 = .ok (rebidState, [Transfer.pull 4 105]) →
      (scnAuction1.bidder = 0 → scnAuction1.params.reserve_price ≤ 105) ∧
      (scnAuction1.bidder ≠ 0 →
        scnAuction1.amount +
          scnAuction1.amount * scnAuction1.params.min_bid_increment_percentage /
            scn1.precision ≤ 105)) ∧
    (scn1.paused = false → (4 : Addr) ≠ 0 → canBid scn1 4 4 = true →
     scnAuction1.settled = false → 20 ≤ scnAuction1.end_time →
      (scnAuction1.bidder = 0 → 105 < scnAuction1.params.reserve_price →
        exec (Op.createBid 4 4 20 1 105) scn1 = .error .belowReserve) ∧
      (scnAuction1.bidder ≠ 0 → 105 < minTotalBid scn1 scnAuction1 →
        exec (Op.createBid 4 4 20 1 105) scn1 = .error .belowIncrement)) ∧
    (exec (Op.createBid 3 3 10 1 100) scnState = .ok (scn1, [Transfer.pull 3 100]) ∧
     exec (Op.createBid 4 4 20 1 104) scn1 = .error .belowIncrement ∧
     exec (Op.createBid 4 4 20 1 105) scn1 = .ok (rebidState, [Transfer.pull 4 105])) :=
  minimum_bid_rule scn1 4 4 20 1 105 rebidState [Transfer.pull 4 105] scnAuction1 (by rfl)

/-- Claim C4: No double withdrawal — a successful withdraw requires a
strictly positive pending-return entry for (auction id, account),
transfers exactly that amount out, zeroes the entry, and any
immediately following withdraw for the same pair (by the account itself
or an approved delegate) fails with the zero-pending error. -/
theorem no_double_withdrawal (s : HouseState) (c x : Addr) (id : Nat)
    (s' : HouseState) (tr : List Transfer)
    (h : exec (Op.withdraw c x id) s = .ok (s', tr)) :
    0 < s.pendingOf id x ∧
    tr = [Transfer.push x (s.pendingOf id x)] ∧
    s'.pendingOf id x = 0 ∧
    ∀ c2, canWithdraw s' x c2 = true →
      exec (Op.withdraw c2 x id) s' = .error .nothingPending := by
  simp only [exec] at h
  unfold withdrawF at h
  split at h
  · exact absurd h (by simp)
  split at h
  · exact absurd h (by simp)
  dsimp only [] at h
  split at h
  · exact absurd h (by simp)
  rename_i hpz hperm hp
  simp only [Except.ok.injEq, Prod.mk.injEq] at h
  obtain ⟨hs, htr⟩ := h
  subst hs
  subst htr
  have hzero : mapGet 0 (mapSet s.pending (id, x) 0) (id, x) = 0 :=
    mapGet_mapSet_self 0 s.pending (id, x) 0
  refine ⟨by omega, rfl, hzero, ?_⟩
  intro c2 hc2
  simp only [exec]
  unfold withdrawF
  rw [if_neg hpz, if_neg (by simp [hc2])]
  dsimp only [HouseState.pendingOf]
  rw [if_pos hzero]

/-- Witness for C4: account 3 withdraws its pending 100 from the demo
state; a repeat withdraw by itself yields the zero-pending error. -/
theorem no_double_withdrawal_witness :
    0 < rebidState.pendingOf 1 3 ∧
    [Transfer.push 3 100] = [Transfer.push 3 (rebidState.pendingOf 1 3)] ∧
    HouseState.pendingOf
      { auctions := [rebidAuction], pending := [((1, 3), 0), ((1, 4), 0)],
        approved := [], owner := 1, fee_receiver := 2, fee_percent := 5,
        precision := 100, paused := false, balance := 105 } 1 3 = 0 ∧
    ∀ c2, canWithdraw
      { auctions := [rebidAuction], pending := [((1, 3), 0), ((1, 4), 0)],
        approved := [], owner := 1, fee_receiver := 2, fee_percent := 5,
        precision := 100, paused := false, balance := 105 } 3 c2 = true →
      exec (Op.withdraw c2 3 1)
        { auctions := [rebidAuction], pending := [((1, 3), 0), ((1, 4), 0)],
          approved := [], owner := 1, fee_receiver := 2, fee_percent := 5,
          precision := 100, paused := false, balance := 105 } =
        .error .nothingPending :=
  no_double_withdrawal rebidState 3 3 1
    { auctions := [rebidAuction], pending := [((1, 3), 0), ((1, 4), 0)],
      approved := [], owner := 1, fee_receiver := 2, fee_percent := 5,
      precision := 100, paused := false, balance := 105 }
    [Transfer.push 3 100] (by rfl)

/-- Claim C5: Withdraw-while-live — an account with a strictly positive
pending return can always withdraw it (given the pause gate and the
delegation check), with no condition on the auction being live, ended
or settled; the payout is the pending amount and the auction record
(winning bidder and amount) is untouched. -/
theorem withdraw_while_live (s : HouseState) (c x : Addr) (id : Nat) (a : Auction)
    (ha : s.auction id = some a)
    (hpz : s.paused = false)
    (hperm : canWithdraw s x c = true)
    (hp : 0 < s.pendingOf id x) :
    exec (Op.withdraw c x id) s =
      .ok ({ s with pending := mapSet s.pending (id, x) 0,
                    balance := s.balance - s.pendingOf id x },
           [Transfer.push x (s.pendingOf id x)]) ∧
    ({ s with pending := mapSet s.pending (id, x) 0,
              balance := s.balance - s.pendingOf id x } : HouseState).auction id = some a := by
  constructor
  · simp only [exec]
    unfold withdrawF
    rw [if_neg (by simp [hpz]), if_neg (by simp [hperm])]
    dsimp only []
    rw [if_neg (by omega)]
  · simpa [HouseState.auction] using ha

/-- Witness for C5: account 3 withdraws its pending 100 while the demo
auction is still live and unsettled. -/
theorem withdraw_while_live_witness :
    exec (Op.withdraw 3 3 1) rebidState =
      .ok ({ rebidState with pending := mapSet rebidState.pending (1, 3) 0,
                             balance := rebidState.balance - rebidState.pendingOf 1 3 },
           [Transfer.push 3 (rebidState.pendingOf 1 3)]) ∧
    ({ rebidState with pending := mapSet rebidState.pending (1, 3) 0,
                       balance := rebidState.balance - rebidState.pendingOf 1 3 } :
      HouseState).auction 1 =
      some rebidAuction :=
  withdraw_while_live rebidState 3 3 1 rebidAuction (by rfl) (by rfl) (by rfl) (by decide)

theorem mapSet_keyMem_self {κ ν : Type} [DecidableEq κ] (l : List (κ × ν)) (k : κ) (v : ν) :
    k ∈ (mapSet l k v).map (·.1) := by
  induction l with
  | nil => simp [mapSet]
  | cons e t ih =>
    by_cases h : e.1 = k
    · simp [mapSet, h]
    · simp only [mapSet, if_neg h, List.map_cons, List.mem_cons]
      exact Or.inr ih

theorem mapSet_keyMem_mono {κ ν : Type} [DecidableEq κ] (l : List (κ × ν)) (k k' : κ) (v : ν)
    (h : k' ∈ l.map (·.1)) : k' ∈ (mapSet l k v).map (·.1) := by
  induction l with
  | nil => simp at h
  | cons e t ih =>
    rcases List.mem_cons.mp h with h1 | h1
    · by_cases h2 : e.1 = k
      · simp only [mapSet, if_pos h2, List.map_cons, List.mem_cons]
        exact Or.inl (h1.trans h2)
      · simp only [mapSet, if_neg h2, List.map_cons, List.mem_cons]
        exact Or.inl h1
    · by_cases h2 : e.1 = k
      · simp only [mapSet, if_pos h2, List.map_cons, List.mem_cons]
        exact Or.inr h1
      · simp only [mapSet, if_neg h2, List.map_cons, List.mem_cons]
        exact Or.inr (ih h1)

theorem collectMany_keyMem (x : Addr) (ids : List Nat) (k : Nat × Addr) :
    ∀ pend, k ∈ pend.map (·.1) → k ∈ ((collectMany x pend ids).1).map (·.1) := by
  induction ids with
  | nil => intro pend h; simpa [collectMany] using h
  | cons id rest ih =>
    intro pend h
    simp only [collectMany]
    exact ih (mapSet pend (id, x) 0) (mapSet_keyMem_mono pend (id, x) k 0 h)

theorem collectMany_adds_key (x : Addr) (id : Nat) (ids : List Nat) (hm : id ∈ ids) :
    ∀ pend, ((id, x)) ∈ ((collectMany x pend ids).1).map (·.1) := by
  induction ids with
  | nil => simp at hm
  | cons id0 rest ih =>
    intro pend
    by_cases h : id ∈ rest
    · simp only [collectMany]
      exact ih h (mapSet pend (id0, x) 0)
    · have hid : id = id0 := by
        rcases List.mem_cons.mp hm with h1 | h1
        · exact h1
        · exact absurd h1 h
      subst hid
      simp only [collectMany]
      exact collectMany_keyMem x rest (id, x) (mapSet pend (id, x) 0)
        (mapSet_keyMem_self pend (id, x) 0)

theorem collectMany_preserves_zero (x : Addr) (ids : List Nat) (k : Nat × Addr) :
    ∀ pend, mapGet 0 pend k = 0 → mapGet 0 (collectMany x pend ids).1 k = 0 := by
  induction ids with
  | nil => intro pend h; simpa [collectMany] using h
  | cons id rest ih =>
    intro pend h
    simp only [collectMany]
    by_cases h2 : k = (id, x)
    · exact ih (mapSet pend (id, x) 0) (by rw [h2]; exact mapGet_mapSet_self 0 pend (id, x) 0)
    · exact ih (mapSet pend (id, x) 0) (by rw [mapGet_mapSet_other 0 pend (id, x) k 0 h2]; exact h)

theorem collectMany_zero_at (x : Addr) (id : Nat) (ids : List Nat) (hm : id ∈ ids) :
    ∀ pend, mapGet 0 (collectMany x pend ids).1 (id, x) = 0 := by
  induction ids with
  | nil => simp at hm
  | cons id0 rest ih =>
    intro pend
    by_cases h : id ∈ rest
    · simp only [collectMany]
      exact ih h (mapSet pend (id0, x) 0)
    · have hid : id = id0 := by
        rcases List.mem_cons.mp hm with h1 | h1
        · exact h1
        · exact absurd h1 h
      subst hid
      simp only [collectMany]
      exact collectMany_preserves_zero x rest (id, x) (mapSet pend (id, x) 0)
        (mapGet_mapSet_self 0 pend (id, x) 0)

theorem mapSet_self_of_get {κ ν : Type} [DecidableEq κ] (l : List (κ × ν)) (k : κ) (d : ν)
    (hmem : k ∈ l.map (·.1)) : mapSet l k (mapGet d l k) = l := by
  induction l with
  | nil => simp at hmem
  | cons e t ih =>
    by_cases h : e.1 = k
    · have he : ((k, e.2) : κ × ν) = e := by rw [← h]
      simp only [mapSet, mapGet, if_pos h]
      rw [he]
    · simp only [mapSet, mapGet, if_neg h]
      have h1 : k ∈ t.map (·.1) := by
        rw [List.map_cons] at hmem
        rcases List.mem_cons.mp hmem with h2 | h2
        · exact absurd h2.symm h
        · exact h2
      rw [ih h1]

theorem collectMany_append (x : Addr) (l1 l2 : List Nat) :
    ∀ pend, collectMany x pend (l1 ++ l2) =
      ((collectMany x (collectMany x pend l1).1 l2).1,
       (collectMany x pend l1).2 + (collectMany x (collectMany x pend l1).1 l2).2) := by
  induction l1 with
  | nil => intro pend; simp [collectMany]
  | cons id rest ih =>
    intro pend
    simp only [List.cons_append, collectMany]
    rw [show (rest.append l2) = rest ++ l2 from rfl, ih (mapSet pend (id, x) 0)]
    dsimp only []
    simp only [Prod.mk.injEq]
    exact ⟨trivial, by omega⟩

/-- Demo state after account 3 batch-withdraws its pending 100. -/
def wmFinal : HouseState :=
  { auctions := [rebidAuction], pending := [((1, 3), 0), ((1, 4), 0)],
    approved := [], owner := 1, fee_receiver := 2, fee_percent := 5,
    precision := 100, paused := false, balance := 105 }

/-- Claim C6: Batched withdrawal with duplicates — appending a
duplicate of an id already in the batch changes nothing (the entry is
zeroed when first processed, so the second occurrence contributes
nothing and the caller is paid at most once); a batch whose total
pending is zero — the empty batch included — is an error; concretely,
withdraw_multiple [1, 1] on the demo state pays the pending 100 exactly
once. -/
theorem batched_withdrawal_duplicates (s : HouseState) (c x : Addr) (id : Nat)
    (ids : List Nat) :
    (id ∈ ids → ids.length < maxWithdrawals →
      exec (Op.withdrawMultiple c x (ids ++ [id])) s =
        exec (Op.withdrawMultiple c x ids) s) ∧
    ((collectMany x s.pending ids).2 = 0 →
      ∀ s' tr, exec (Op.withdrawMultiple c x ids) s ≠ .ok (s', tr)) ∧
    (collectMany x s.pending ([] : List Nat)).2 = 0 ∧
    exec (Op.withdrawMultiple 3 3 [1, 1]) rebidState =
      .ok (wmFinal, [Transfer.push 3 100]) := by
  refine ⟨?_, ?_, by rfl, by rfl⟩
  · intro hm hlen
    simp only [exec]
    unfold withdrawMultipleF
    by_cases hpz : s.paused
    · rw [if_pos hpz, if_pos hpz]
    rw [if_neg hpz, if_neg hpz]
    by_cases hperm : ¬ canWithdraw s x c
    · rw [if_pos hperm, if_pos hperm]
    rw [if_neg hperm, if_neg hperm]
    have hlen1 : ¬ (maxWithdrawals < (ids ++ [id]).length) := by
      rw [List.length_append]
      simp only [List.length_cons, List.length_nil]
      omega
    have hlen2 : ¬ (maxWithdrawals < ids.length) := by omega
    rw [if_neg hlen1, if_neg hlen2]
    have hkey := collectMany_adds_key x id ids hm s.pending
    have hzero := collectMany_zero_at x id ids hm s.pending
    have hself : mapSet (collectMany x s.pending ids).1 (id, x) 0 =
        (collectMany x s.pending ids).1 := by
      have h2 := mapSet_self_of_get (collectMany x s.pending ids).1 (id, x) 0 hkey
      rw [hzero] at h2
      exact h2
    have hone : collectMany x (collectMany x s.pending ids).1 [id] =
        ((collectMany x s.pending ids).1, 0) := by
      simp only [collectMany]
      rw [hself, hzero]
    rw [collectMany_append x ids [id] s.pending, hone]
    dsimp only []
    rw [Nat.add_zero]
  · intro h0 s' tr hok
    simp only [exec] at hok
    unfold withdrawMultipleF at hok
    split at hok
    · exact absurd hok (by simp)
    split at hok
    · exact absurd hok (by simp)
    split at hok
    · exact absurd hok (by simp)
    dsimp only [] at hok
    split at hok
    · exact absurd hok (by simp)
    · rename_i hne
      exact hne h0

/-- Witness for C6: duplicating id 1 in the batch is a no-op and the
empty batch errors, on the demo state. -/
theorem batched_withdrawal_duplicates_witness :
    exec (Op.withdrawMultiple 3 3 ([1] ++ [1])) rebidState =
      exec (Op.withdrawMultiple 3 3 [1]) rebidState ∧
    (∀ s' tr, exec (Op.withdrawMultiple 3 3 []) rebidState ≠ .ok (s', tr)) :=
  ⟨(batched_withdrawal_duplicates rebidState 3 3 1 [1]).1 (by decide) (by decide),
   (batched_withdrawal_duplicates rebidState 3 3 1 []).2.1 (by decide)⟩

/-- Claim C7: Settlement semantics — settle ignores its caller (anyone
may call); success requires the auction unsettled and `now > end_time`
and marks it settled, so a second settle errors with the
already-settled error; with a winning bid it pushes exactly
`floor(amount * fee_percent / precision)` to the fee recipient and the
remainder to the beneficiary override or the protocol owner; with no
bid nothing is transferred; before the end it errors. -/
theorem settlement_semantics (s : HouseState) (c c2 : Addr) (now now2 id : Nat)
    (s' : HouseState) (tr : List Transfer) (a : Auction)
    (ha : s.auction id = some a) :
    (exec (Op.settleAuction c now id) s = exec (Op.settleAuction c2 now id) s) ∧
    (exec (Op.settleAuction c now id) s = .ok (s', tr) →
      (a.settled = false ∧ a.end_time < now) ∧
      s'.auction id = some { a with settled := true } ∧
      exec (Op.settleAuction c2 now2 id) s' = .error .alreadySettled ∧
      (a.bidder ≠ 0 → tr =
        [Transfer.push s.fee_receiver (a.amount * s.fee_percent / s.precision),
         Transfer.push (if a.params.beneficiary = 0 then s.owner else a.params.beneficiary)
           (a.amount - a.amount * s.fee_percent / s.precision)]) ∧
      (a.bidder = 0 → tr = [])) ∧
    (s.paused = false → a.settled = false → now ≤ a.end_time →
      exec (Op.settleAuction c now id) s = .error .notComplete) := by
  have hid : ¬ id = 0 := by
    intro h0
    rw [HouseState.auction, if_pos h0] at ha
    cases ha
  have hget : s.auctions.get? (id - 1) = some a := by
    rw [HouseState.auction, if_neg hid] at ha
    exact ha
  refine ⟨rfl, ?_, ?_⟩
  · intro h
    simp only [exec] at h
    unfold settleAuctionF at h
    split at h
    · exact absurd h (by simp)
    rw [ha] at h
    dsimp only [] at h
    split at h
    · exact absurd h (by simp)
    split at h
    · exact absurd h (by simp)
    rename_i hpz hset hend
    have hset' : a.settled = false := by
      cases hs : a.settled
      · rfl
      · exact absurd hs hset
    have hend' : a.end_time < now := by omega
    simp only [distribute] at h
    split at h
    · rename_i hbz
      simp only [Except.ok.injEq, Prod.mk.injEq] at h
      obtain ⟨hs, htr⟩ := h
      subst hs
      subst htr
      have hauct :
          ({ s with
              auctions := s.auctions.set (id - 1) ({ a with settled := true } : Auction) } :
            HouseState).auction id = some ({ a with settled := true } : Auction) := by
        rw [HouseState.auction, if_neg hid]
        exact getQ_set_self s.auctions (id - 1) _ a hget
      refine ⟨⟨hset', hend'⟩, hauct, ?_, fun hb => absurd hbz hb, fun _ => rfl⟩
      simp only [exec]
      unfold settleAuctionF
      rw [if_neg hpz, hauct]
      dsimp only []
      rw [if_pos rfl]
    · rename_i hbz
      simp only [Except.ok.injEq, Prod.mk.injEq] at h
      obtain ⟨hs, htr⟩ := h
      subst hs
      subst htr
      have hauct :
          ({ s with
              auctions := s.auctions.set (id - 1) ({ a with settled := true } : Auction),
              balance := s.balance - a.amount } :
            HouseState).auction id = some ({ a with settled := true } : Auction) := by
        rw [HouseState.auction, if_neg hid]
        exact getQ_set_self s.auctions (id - 1) _ a hget
      refine ⟨⟨hset', hend'⟩, hauct, ?_, fun _ => rfl, fun hb => absurd hb hbz⟩
      simp only [exec]
      unfold settleAuctionF
      rw [if_neg hpz, hauct]
      dsimp only []
      rw [if_pos rfl]
  · intro hpz hset hend
    simp only [exec]
    unfold settleAuctionF
    rw [if_neg (by simp [hpz]), ha]
    dsimp only []
    rw [if_neg (by simp [hset]), if_pos hend]

/-- Demo state after the auction with bids 100 (displaced) and 105
(winning) settles: fee 5 to the fee recipient, 100 to the owner. -/
def stFinal : HouseState :=
  { auctions := [{ rebidAuction with settled := true }],
    pending := [((1, 3), 100), ((1, 4), 0)],
    approved := [], owner := 1, fee_receiver := 2, fee_percent := 5,
    precision := 100, paused := false, balance := 100 }

/-- Witness for C7: settling the demo auction at time 1001 splits the
105 winning bid into fee 5 and proceeds 100, and a second settle errors. -/
theorem settlement_semantics_witness :
    (exec (Op.settleAuction 5 1001 1) rebidState =
      exec (Op.settleAuction 9 1001 1) rebidState) ∧
    ((rebidAuction.settled = false ∧ rebidAuction.end_time < 1001) ∧
      stFinal.auction 1 = some { rebidAuction with settled := true } ∧
      exec (Op.settleAuction 9 2000 1) stFinal = .error .alreadySettled ∧
      (rebidAuction.bidder ≠ 0 →
        [Transfer.push 2 5, Transfer.push 1 100] =
          [Transfer.push rebidState.fee_receiver
             (rebidAuction.amount * rebidState.fee_percent / rebidState.precision),
           Transfer.push
             (if rebidAuction.params.beneficiary = 0 then rebidState.owner
              else rebidAuction.params.beneficiary)
             (rebidAuction.amount -
               rebidAuction.amount * rebidState.fee_percent / rebidState.precision)]) ∧
      (rebidAuction.bidder = 0 → [Transfer.push 2 5, Transfer.push 1 100] = [])) :=
  ⟨(settlement_semantics rebidState 5 9 1001 2000 1 stFinal
      [Transfer.push 2 5, Transfer.push 1 100] rebidAuction (by rfl)).1,
   (settlement_semantics rebidState 5 9 1001 2000 1 stFinal
      [Transfer.push 2 5, Transfer.push 1 100] rebidAuction (by rfl)).2.1 (by rfl)⟩

/-- Claim C8: Nullification — nullify is owner-only, rejects an
already-settled auction with the already-settled error (distinct from
the not-yet-ended settle error), and succeeds on any unsettled auction
with no pause condition; on success it zeroes the auction's amount and
bidder, marks it settled, makes no transfers (so no fee is taken and
nothing is distributed), and credits the displaced winning bidder's
full amount as a pending return for that auction. -/
theorem nullification (s : HouseState) (c : Addr) (id : Nat) (a : Auction)
    (ha : s.auction id = some a) :
    (c ≠ s.owner → exec (Op.nullifyAuction c id) s = .error .notOwner) ∧
    (c = s.owner → a.settled = true →
      exec (Op.nullifyAuction c id) s = .error .alreadySettled) ∧
    Err.alreadySettled ≠ Err.notComplete ∧
    (c = s.owner → a.settled = false →
      exec (Op.nullifyAuction c id) s =
        .ok ({ s with
                auctions := s.auctions.set (id - 1)
                  { a with amount := 0, bidder := 0, settled := true },
                pending :=
                  if a.bidder ≠ 0 then
                    mapSet s.pending (id, a.bidder)
                      (mapGet 0 s.pending (id, a.bidder) + a.amount)
                  else s.pending }, [])) := by
  refine ⟨?_, ?_, by simp, ?_⟩
  · intro hc
    simp only [exec]
    unfold nullifyAuctionF
    rw [if_pos hc]
  · intro hc hset
    simp only [exec]
    unfold nullifyAuctionF
    rw [if_neg (by simp [hc]), ha]
    dsimp only []
    rw [if_pos hset]
  · intro hc hset
    simp only [exec]
    unfold nullifyAuctionF
    rw [if_neg (by simp [hc]), ha]
    dsimp only []
    rw [if_neg (by simp [hset])]

/-- Witness for C8: the owner nullifies the demo auction while the
contract is paused; the displaced winner (account 4, amount 105) is
credited, nothing is transferred. -/
theorem nullification_witness :
    ((1 : Addr) ≠ ({ rebidState with paused := true } : HouseState).owner →
      exec (Op.nullifyAuction 1 1) { rebidState with paused := true } =
        .error .notOwner) ∧
    ((1 : Addr) = ({ rebidState with paused := true } : HouseState).owner →
      rebidAuction.settled = true →
      exec (Op.nullifyAuction 1 1) { rebidState with paused := true } =
        .error .alreadySettled) ∧
    Err.alreadySettled ≠ Err.notComplete ∧
    ((1 : Addr) = ({ rebidState with paused := true } : HouseState).owner →
      rebidAuction.settled = false →
      exec (Op.nullifyAuction 1 1) { rebidState with paused := true } =
        .ok ({ ({ rebidState with paused := true } : HouseState) with
                auctions := ({ rebidState with paused := true } : HouseState).auctions.set 0
                  { rebidAuction with amount := 0, bidder := 0, settled := true },
                pending :=
                  if rebidAuction.bidder ≠ 0 then
                    mapSet ({ rebidState with paused := true } : HouseState).pending
                      (1, rebidAuction.bidder)
                      (mapGet 0 ({ rebidState with paused := true } : HouseState).pending
                        (1, rebidAuction.bidder) + rebidAuction.amount)
                  else ({ rebidState with paused := true } : HouseState).pending }, [])) :=
  nullification { rebidState with paused := true } 1 1 rebidAuction (by rfl)

theorem bidCore_approved (s : HouseState) (onBehalf : Addr) (now id total : Nat)
    (s' : HouseState) (tr : List Transfer)
    (h : bidCore s onBehalf now id total = .ok (s', tr)) : s'.approved = s.approved := by
  unfold bidCore at h
  cases ha : s.auction id with
  | none => rw [ha] at h; exact absurd h (by simp)
  | some a =>
    rw [ha] at h
    dsimp only [] at h
    split at h
    · exact absurd h (by simp)
    split at h
    · exact absurd h (by simp)
    split at h
    · exact absurd h (by simp)
    split at h
    · exact absurd h (by simp)
    split at h
    · exact absurd h (by simp)
    split at h
    · simp only [distribute] at h
      split at h
      all_goals
        simp only [Except.ok.injEq, Prod.mk.injEq] at h
        obtain ⟨hs, htr⟩ := h
        subst hs
        rfl
    · simp only [Except.ok.injEq, Prod.mk.injEq] at h
      obtain ⟨hs, htr⟩ := h
      subst hs
      rfl

/-- Claim C9: Permission changes only by the principal — if a
successful operation changes the permission-table entry of any
(principal, delegate) pair, that operation is `set_approved_caller`
called by the principal itself on that delegate with the new level; no
other entry point (and in particular no owner/admin override) can grant
or revoke a delegation. -/
theorem permission_changes_only_by_principal (op : Op) (s s' : HouseState)
    (tr : List Transfer) (o d : Addr)
    (h : exec op s = .ok (s', tr))
    (hch : s'.levelOf o d ≠ s.levelOf o d) :
    op = Op.setApprovedCaller o d (s'.levelOf o d) := by
  cases op with
  | setApprovedCaller caller delegate level =>
    simp only [exec] at h
    unfold setApprovedCallerF at h
    split at h
    · exact absurd h (by simp)
    simp only [Except.ok.injEq, Prod.mk.injEq] at h
    obtain ⟨hs, htr⟩ := h
    subst hs
    by_cases hk : ((o, d) : Addr × Addr) = (caller, delegate)
    · have ho : o = caller := congrArg Prod.fst hk
      have hd : d = delegate := congrArg Prod.snd hk
      subst ho
      subst hd
      have hl : HouseState.levelOf
          { s with approved := mapSet s.approved (o, d) level } o d = level := by
        dsimp only [HouseState.levelOf]
        exact mapGet_mapSet_self _ s.approved (o, d) level
      rw [hl]
    · exfalso
      apply hch
      dsimp only [HouseState.levelOf]
      exact mapGet_mapSet_other _ s.approved (caller, delegate) (o, d) level hk
  | createAuction caller now p =>
    exfalso
    apply hch
    simp only [exec] at h
    unfold createAuctionF at h
    split at h
    · exact absurd h (by simp)
    split at h
    · exact absurd h (by simp)
    simp only [Except.ok.injEq, Prod.mk.injEq] at h
    obtain ⟨hs, htr⟩ := h
    subst hs
    rfl
  | createBid caller onBehalf now id total =>
    exfalso
    apply hch
    simp only [exec] at h
    unfold createBidF at h
    split at h
    · exact absurd h (by simp)
    split at h
    · exact absurd h (by simp)
    split at h
    · exact absurd h (by simp)
    dsimp only [HouseState.levelOf]
    rw [bidCore_approved s onBehalf now id total s' tr h]
  | createBidWithToken caller onBehalf now id conv minOut =>
    exfalso
    apply hch
    simp only [exec] at h
    unfold createBidWithTokenF at h
    split at h
    · exact absurd h (by simp)
    split at h
    · exact absurd h (by simp)
    split at h
    · exact absurd h (by simp)
    cases ha : s.auction id with
    | none => rw [ha] at h; exact absurd h (by simp)
    | some a =>
      rw [ha] at h
      dsimp only [] at h
      split at h
      · exact absurd h (by simp)
      dsimp only [HouseState.levelOf]
      rw [bidCore_approved s onBehalf now id _ s' tr h]
  | withdraw caller onBehalf id =>
    exfalso
    apply hch
    simp only [exec] at h
    unfold withdrawF at h
    split at h
    · exact absurd h (by simp)
    split at h
    · exact absurd h (by simp)
    dsimp only [] at h
    split at h
    · exact absurd h (by simp)
    simp only [Except.ok.injEq, Prod.mk.injEq] at h
    obtain ⟨hs, htr⟩ := h
    subst hs
    rfl
  | withdrawMultiple caller onBehalf ids =>
    exfalso
    apply hch
    simp only [exec] at h
    unfold withdrawMultipleF at h
    split at h
    · exact absurd h (by simp)
    split at h
    · exact absurd h (by simp)
    split at h
    · exact absurd h (by simp)
    dsimp only [] at h
    split at h
    · exact absurd h (by simp)
    simp only [Except.ok.injEq, Prod.mk.injEq] at h
    obtain ⟨hs, htr⟩ := h
    subst hs
    rfl
  | settleAuction caller now id =>
    exfalso
    apply hch
    simp only [exec] at h
    unfold settleAuctionF at h
    split at h
    · exact absurd h (by simp)
    cases ha : s.auction id with
    | none => rw [ha] at h; exact absurd h (by simp)
    | some a =>
      rw [ha] at h
      dsimp only [] at h
      split at h
      · exact absurd h (by simp)
      split at h
      · exact absurd h (by simp)
      simp only [distribute] at h
      split at h
      all_goals
        simp only [Except.ok.injEq, Prod.mk.injEq] at h
        obtain ⟨hs, htr⟩ := h
        subst hs
        rfl
  | nullifyAuction caller id =>
    exfalso
    apply hch
    simp only [exec] at h
    unfold nullifyAuctionF at h
    split at h
    · exact absurd h (by simp)
    cases ha : s.auction id with
    | none => rw [ha] at h; exact absurd h (by simp)
    | some a =>
      rw [ha] at h
      dsimp only [] at h
      split at h
      · exact absurd h (by simp)
      simp only [Except.ok.injEq, Prod.mk.injEq] at h
      obtain ⟨hs, htr⟩ := h
      subst hs
      rfl
  | sweepStale caller accounts =>
    exfalso
    apply hch
    simp only [exec] at h
    unfold sweepStaleF at h
    split at h
    · exact absurd h (by simp)
    split at h
    · exact absurd h (by simp)
    simp only [Except.ok.injEq, Prod.mk.injEq] at h
    obtain ⟨hs, htr⟩ := h
    subst hs
    rfl
  | pause caller =>
    exfalso
    apply hch
    simp only [exec] at h
    unfold setPausedF at h
    split at h
    · exact absurd h (by simp)
    simp only [Except.ok.injEq, Prod.mk.injEq] at h
    obtain ⟨hs, htr⟩ := h
    subst hs
    rfl
  | unpause caller =>
    exfalso
    apply hch
    simp only [exec] at h
    unfold setPausedF at h
    split at h
    · exact absurd h (by simp)
    simp only [Except.ok.injEq, Prod.mk.injEq] at h
    obtain ⟨hs, htr⟩ := h
    subst hs
    rfl

/-- Witness for C9: account 3 grants account 4 bid-only delegation; the
only operation that could have produced the observed table change is
that very call. -/
theorem permission_changes_only_by_principal_witness :
    Op.setApprovedCaller 3 4 ApprovalStatus.bidOnly =
      Op.setApprovedCaller 3 4
        (HouseState.levelOf
          { rebidState with approved := [((3, 4), ApprovalStatus.bidOnly)] } 3 4) :=
  permission_changes_only_by_principal
    (Op.setApprovedCaller 3 4 ApprovalStatus.bidOnly) rebidState
    { rebidState with approved := [((3, 4), ApprovalStatus.bidOnly)] }
    [] 3 4 (by rfl) (by decide)

theorem getQ_append_left {α : Type} (l l2 : List α) (n : Nat) (a : α)
    (h : l.get? n = some a) : (l ++ l2).get? n = some a := by
  induction l generalizing n with
  | nil => simp at h
  | cons x t ih =>
    cases n with
    | zero => simpa using h
    | succ m =>
      simp only [List.get?] at h
      simpa using ih m h

theorem bidCore_auctions (s : HouseState) (onBehalf : Addr) (now id total : Nat)
    (s' : HouseState) (tr : List Transfer) (a : Auction)
    (ha : s.auction id = some a)
    (h : bidCore s onBehalf now id total = .ok (s', tr)) :
    ∃ st : Bool, s'.auctions = s.auctions.set (id - 1)
      { a with amount := total, bidder := onBehalf,
               end_time := if a.end_time - a.params.time_buffer < now
                 then now + a.params.time_buffer else a.end_time,
               settled := st } := by
  unfold bidCore at h
  rw [ha] at h
  dsimp only [] at h
  split at h
  · exact absurd h (by simp)
  split at h
  · exact absurd h (by simp)
  split at h
  · exact absurd h (by simp)
  split at h
  · exact absurd h (by simp)
  split at h
  · exact absurd h (by simp)
  split at h
  · simp only [distribute] at h
    split at h
    all_goals
      simp only [Except.ok.injEq, Prod.mk.injEq] at h
      obtain ⟨hs, htr⟩ := h
      subst hs
      exact ⟨true, by rw [List.set_set]⟩
  · simp only [Except.ok.injEq, Prod.mk.injEq] at h
    obtain ⟨hs, htr⟩ := h
    subst hs
    exact ⟨a.settled, rfl⟩

theorem lookup_after_set (l : List Auction) (i : Nat) (nb : Auction) (j : Nat) (b b' : Auction)
    (hb : l.get? j = some b) (hb' : (l.set i nb).get? j = some b') :
    (j = i ∧ b' = nb) ∨ (j ≠ i ∧ b' = b) := by
  by_cases hji : j = i
  · subst hji
    rw [getQ_set_self l j nb b hb] at hb'
    exact Or.inl ⟨rfl, (Option.some.inj hb').symm⟩
  · rw [getQ_set_other l i j nb (fun hh => hji hh.symm)] at hb'
    rw [hb] at hb'
    exact Or.inr ⟨hji, (Option.some.inj hb').symm⟩

theorem settleAuctionF_auctions (s : HouseState) (now id : Nat)
    (s' : HouseState) (tr : List Transfer)
    (h : settleAuctionF s now id = .ok (s', tr)) :
    ∃ a, s.auction id = some a ∧
      s'.auctions = s.auctions.set (id - 1) { a with settled := true } := by
  unfold settleAuctionF at h
  split at h
  · exact absurd h (by simp)
  cases ha : s.auction id with
  | none => rw [ha] at h; exact absurd h (by simp)
  | some a =>
    rw [ha] at h
    dsimp only [] at h
    split at h
    · exact absurd h (by simp)
    split at h
    · exact absurd h (by simp)
    simp only [distribute] at h
    split at h
    all_goals
      simp only [Except.ok.injEq, Prod.mk.injEq] at h
      obtain ⟨hs, htr⟩ := h
      subst hs
      exact ⟨a, rfl, rfl⟩

theorem nullifyAuctionF_auctions (s : HouseState) (c : Addr) (id : Nat)
    (s' : HouseState) (tr : List Transfer)
    (h : nullifyAuctionF s c id = .ok (s', tr)) :
    ∃ a, s.auction id = some a ∧
      s'.auctions = s.auctions.set (id - 1)
        { a with amount := 0, bidder := 0, settled := true } := by
  unfold nullifyAuctionF at h
  split at h
  · exact absurd h (by simp)
  cases ha : s.auction id with
  | none => rw [ha] at h; exact absurd h (by simp)
  | some a =>
    rw [ha] at h
    dsimp only [] at h
    split at h
    · exact absurd h (by simp)
    simp only [Except.ok.injEq, Prod.mk.injEq] at h
    obtain ⟨hs, htr⟩ := h
    subst hs
    exact ⟨a, rfl, rfl⟩

/-- The (timestamp, auction id) of a bid-placing operation. -/
def bidTimeOf : Op → Option (Nat × Nat)
  | .createBid _ _ now id _ => some (now, id)
  | .createBidWithToken _ _ now id _ _ => some (now, id)
  | _ => none

theorem mono_of_same (s s' : HouseState) (hs' : s'.auctions = s.auctions) :
    ∀ id2 b b', s.auction id2 = some b → s'.auction id2 = some b' →
      b.end_time ≤ b'.end_time := by
  intro id2 b b' hb hb'
  rw [HouseState.auction, hs'] at hb'
  rw [HouseState.auction] at hb
  rw [hb] at hb'
  exact le_of_eq (congrArg Auction.end_time (Option.some.inj hb'))

theorem mono_of_append (s s' : HouseState) (nb : Auction)
    (hs' : s'.auctions = s.auctions ++ [nb]) :
    ∀ id2 b b', s.auction id2 = some b → s'.auction id2 = some b' →
      b.end_time ≤ b'.end_time := by
  intro id2 b b' hb hb'
  have hid2 : ¬ id2 = 0 := by
    intro h0
    rw [HouseState.auction, if_pos h0] at hb
    cases hb
  rw [HouseState.auction, if_neg hid2] at hb hb'
  rw [hs', getQ_append_left s.auctions [nb] (id2 - 1) b hb] at hb'
  exact le_of_eq (congrArg Auction.end_time (Option.some.inj hb'))

theorem mono_of_set (s s' : HouseState) (id0 : Nat) (a0 nb : Auction)
    (ha0 : s.auction id0 = some a0)
    (hs' : s'.auctions = s.auctions.set (id0 - 1) nb)
    (hend : a0.end_time ≤ nb.end_time) :
    ∀ id2 b b', s.auction id2 = some b → s'.auction id2 = some b' →
      b.end_time ≤ b'.end_time := by
  intro id2 b b' hb hb'
  have hid2 : ¬ id2 = 0 := by
    intro h0
    rw [HouseState.auction, if_pos h0] at hb
    cases hb
  have hid0 : ¬ id0 = 0 := by
    intro h0
    rw [HouseState.auction, if_pos h0] at ha0
    cases ha0
  rw [HouseState.auction, if_neg hid2] at hb hb'
  rw [hs'] at hb'
  rcases lookup_after_set s.auctions (id0 - 1) nb (id2 - 1) b b' hb hb' with
    ⟨hji, hbnew⟩ | ⟨_, hbold⟩
  · have hba : b = a0 := by
      rw [HouseState.auction, if_neg hid0] at ha0
      rw [hji] at hb
      rw [hb] at ha0
      exact Option.some.inj ha0
    rw [hbnew, hba]
    exact hend
  · rw [hbold]

/-- Claim C10: Anti-snipe extension and end-time monotonicity — across
every successful operation an auction's end time never decreases, and a
bid (plain or token) accepted at time `now` with
`now > end_time - time_buffer` sets the auction's end time to
`now + time_buffer`. -/
theorem anti_snipe_end_time (op : Op) (s s' : HouseState) (tr : List Transfer)
    (h : exec op s = .ok (s', tr)) :
    (∀ id2 b b', s.auction id2 = some b → s'.auction id2 = some b' →
      b.end_time ≤ b'.end_time) ∧
    (∀ now1 id1 b b', bidTimeOf op = some (now1, id1) →
      s.auction id1 = some b → s'.auction id1 = some b' →
      b.end_time - b.params.time_buffer < now1 →
      b'.end_time = now1 + b.params.time_buffer) := by
  cases op with
  | createAuction caller now p =>
    simp only [exec] at h
    unfold createAuctionF at h
    split at h
    · exact absurd h (by simp)
    split at h
    · exact absurd h (by simp)
    simp only [Except.ok.injEq, Prod.mk.injEq] at h
    obtain ⟨hs, htr⟩ := h
    subst hs
    refine ⟨mono_of_append s _ _ rfl, ?_⟩
    intro now1 id1 b b' hbt
    simp [bidTimeOf] at hbt
  | createBid caller x now0 id0 t =>
    simp only [exec] at h
    unfold createBidF at h
    split at h
    · exact absurd h (by simp)
    split at h
    · exact absurd h (by simp)
    split at h
    · exact absurd h (by simp)
    cases ha0 : s.auction id0 with
    | none =>
      exfalso
      unfold bidCore at h
      rw [ha0] at h
      exact absurd h (by simp)
    | some a0 =>
      obtain ⟨st, hs'⟩ := bidCore_auctions s x now0 id0 t s' tr a0 ha0 h
      constructor
      · refine mono_of_set s s' id0 a0 _ ha0 hs' ?_
        dsimp only []
        split
        all_goals omega
      · intro now1 id1 b b' hbt hb hb' hlt
        simp only [bidTimeOf, Option.some.injEq, Prod.mk.injEq] at hbt
        obtain ⟨hn, hi⟩ := hbt
        subst hn
        subst hi
        have hid0 : ¬ id0 = 0 := by
          intro h0
          rw [HouseState.auction, if_pos h0] at ha0
          cases ha0
        rw [HouseState.auction, if_neg hid0] at hb hb' ha0
        have hba : b = a0 := by
          rw [hb] at ha0
          exact Option.some.inj ha0
        rw [hs', getQ_set_self s.auctions (id0 - 1) _ a0 ha0] at hb'
        have hbnew := (Option.some.inj hb').symm
        rw [hbnew]
        dsimp only []
        rw [hba] at hlt
        rw [if_pos hlt, hba]
  | createBidWithToken caller x now0 id0 conv minOut =>
    simp only [exec] at h
    unfold createBidWithTokenF at h
    split at h
    · exact absurd h (by simp)
    split at h
    · exact absurd h (by simp)
    split at h
    · exact absurd h (by simp)
    cases ha0 : s.auction id0 with
    | none => rw [ha0] at h; exact absurd h (by simp)
    | some a0 =>
      rw [ha0] at h
      dsimp only [] at h
      split at h
      · exact absurd h (by simp)
      obtain ⟨st, hs'⟩ := bidCore_auctions s x now0 id0 _ s' tr a0 ha0 h
      constructor
      · refine mono_of_set s s' id0 a0 _ ha0 hs' ?_
        dsimp only []
        split
        all_goals omega
      · intro now1 id1 b b' hbt hb hb' hlt
        simp only [bidTimeOf, Option.some.injEq, Prod.mk.injEq] at hbt
        obtain ⟨hn, hi⟩ := hbt
        subst hn
        subst hi
        have hid0 : ¬ id0 = 0 := by
          intro h0
          rw [HouseState.auction, if_pos h0] at ha0
          cases ha0
        rw [HouseState.auction, if_neg hid0] at hb hb' ha0
        have hba : b = a0 := by
          rw [hb] at ha0
          exact Option.some.inj ha0
        rw [hs', getQ_set_self s.auctions (id0 - 1) _ a0 ha0] at hb'
        have hbnew := (Option.some.inj hb').symm
        rw [hbnew]
        dsimp only []
        rw [hba] at hlt
        rw [if_pos hlt, hba]
  | withdraw caller onBehalf id =>
    refine ⟨?_, ?_⟩
    · simp only [exec] at h
      unfold withdrawF at h
      split at h
      · exact absurd h (by simp)
      split at h
      · exact absurd h (by simp)
      dsimp only [] at h
      split at h
      · exact absurd h (by simp)
      simp only [Except.ok.injEq, Prod.mk.injEq] at h
      obtain ⟨hs, htr⟩ := h
      subst hs
      exact mono_of_same s _ rfl
    · intro now1 id1 b b' hbt
      simp [bidTimeOf] at hbt
  | withdrawMultiple caller onBehalf ids =>
    refine ⟨?_, ?_⟩
    · simp only [exec] at h
      unfold withdrawMultipleF at h
      split at h
      · exact absurd h (by simp)
      split at h
      · exact absurd h (by simp)
      split at h
      · exact absurd h (by simp)
      dsimp only [] at h
      split at h
      · exact absurd h (by simp)
      simp only [Except.ok.injEq, Prod.mk.injEq] at h
      obtain ⟨hs, htr⟩ := h
      subst hs
      exact mono_of_same s _ rfl
    · intro now1 id1 b b' hbt
      simp [bidTimeOf] at hbt
  | settleAuction caller now id =>
    obtain ⟨a0, ha0, hs'⟩ := settleAuctionF_auctions s now id s' tr h
    refine ⟨mono_of_set s s' id a0 _ ha0 hs' (Nat.le_refl _), ?_⟩
    intro now1 id1 b b' hbt
    simp [bidTimeOf] at hbt
  | nullifyAuction caller id =>
    obtain ⟨a0, ha0, hs'⟩ := nullifyAuctionF_auctions s caller id s' tr h
    refine ⟨mono_of_set s s' id a0 _ ha0 hs' (Nat.le_refl _), ?_⟩
    intro now1 id1 b b' hbt
    simp [bidTimeOf] at hbt
  | sweepStale caller accounts =>
    refine ⟨?_, ?_⟩
    · simp only [exec] at h
      unfold sweepStaleF at h
      split at h
      · exact absurd h (by simp)
      split at h
      · exact absurd h (by simp)
      simp only [Except.ok.injEq, Prod.mk.injEq] at h
      obtain ⟨hs, htr⟩ := h
      subst hs
      exact mono_of_same s _ rfl
    · intro now1 id1 b b' hbt
      simp [bidTimeOf] at hbt
  | setApprovedCaller caller delegate level =>
    refine ⟨?_, ?_⟩
    · simp only [exec] at h
      unfold setApprovedCallerF at h
      split at h
      · exact absurd h (by simp)
      simp only [Except.ok.injEq, Prod.mk.injEq] at h
      obtain ⟨hs, htr⟩ := h
      subst hs
      exact mono_of_same s _ rfl
    · intro now1 id1 b b' hbt
      simp [bidTimeOf] at hbt
  | pause caller =>
    refine ⟨?_, ?_⟩
    · simp only [exec] at h
      unfold setPausedF at h
      split at h
      · exact absurd h (by simp)
      simp only [Except.ok.injEq, Prod.mk.injEq] at h
      obtain ⟨hs, htr⟩ := h
      subst hs
      exact mono_of_same s _ rfl
    · intro now1 id1 b b' hbt
      simp [bidTimeOf] at hbt
  | unpause caller =>
    refine ⟨?_, ?_⟩
    · simp only [exec] at h
      unfold setPausedF at h
      split at h
      · exact absurd h (by simp)
      simp only [Except.ok.injEq, Prod.mk.injEq] at h
      obtain ⟨hs, htr⟩ := h
      subst hs
      exact mono_of_same s _ rfl
    · intro now1 id1 b b' hbt
      simp [bidTimeOf] at hbt

/-- The demo auction after an anti-snipe bid of 105 at time 950 (inside
the 100-second buffer before end time 1000): end time becomes 1050. -/
def snipeAuction : Auction :=
  { amount := 105, bidder := 4, start_time := 0, end_time := 1050,
    settled := false, params := demoParams }

/-- Demo engine after the anti-snipe bid. -/
def snipeFinal : HouseState :=
  { auctions := [snipeAuction],
    pending := [((1, 3), 100), ((1, 4), 0)],
    approved := [], owner := 1, fee_receiver := 2, fee_percent := 5,
    precision := 100, paused := false, balance := 205 }

/-- Witness for C10: the bid at time 950 (buffer 100, end 1000) does
not shorten the auction and resets the end time to 950 + 100. -/
theorem anti_snipe_end_time_witness :
    scnAuction1.end_time ≤ snipeAuction.end_time ∧
    snipeAuction.end_time = 950 + scnAuction1.params.time_buffer :=
  ⟨(anti_snipe_end_time (Op.createBid 4 4 950 1 105) scn1 snipeFinal
      [Transfer.pull 4 105] (by rfl)).1 1 scnAuction1 snipeAuction (by rfl) (by rfl),
   (anti_snipe_end_time (Op.createBid 4 4 950 1 105) scn1 snipeFinal
      [Transfer.pull 4 105] (by rfl)).2 950 1 scnAuction1 snipeAuction
      (by rfl) (by rfl) (by rfl) (by decide)⟩
